import Mathlib

/-!
# Verification of the FABRIK IK solver (`src/lib/ik.ts`)

This file gives a shallow embedding, over the real numbers, of the IK chain
data model and the FABRIK solver of the route-planner repository, together
with proofs and refutations of the specification claims about them.

Conventions of the embedding:
* `three.js` `Vector3` values become the structure `V3` with real coordinates;
  `Vector3.length`, `distanceTo`, `normalize` (including its zero-length
  guard `divideScalar(length() || 1)`) are translated literally.
* The in-place mutation of joint positions becomes explicit state passing:
  each pass returns the list of updated positions.
* `solve()` returns the pair of its boolean result and the updated chain.
-/

/-- 3D vector with real coordinates, embedding `THREE.Vector3`. -/
structure V3 where
  x : ℝ
  y : ℝ
  z : ℝ

namespace V3

instance : Inhabited V3 := ⟨⟨0, 0, 0⟩⟩

theorem ext_iff {a b : V3} : a = b ↔ a.x = b.x ∧ a.y = b.y ∧ a.z = b.z := by
  cases a; cases b; simp [mk.injEq]

def add (a b : V3) : V3 := ⟨a.x + b.x, a.y + b.y, a.z + b.z⟩

def sub (a b : V3) : V3 := ⟨a.x - b.x, a.y - b.y, a.z - b.z⟩

def smul (a : V3) (c : ℝ) : V3 := ⟨a.x * c, a.y * c, a.z * c⟩

def dot (a b : V3) : ℝ := a.x * b.x + a.y * b.y + a.z * b.z

/-- `THREE.Vector3.length`. -/
noncomputable def length (v : V3) : ℝ := Real.sqrt (v.x ^ 2 + v.y ^ 2 + v.z ^ 2)

/-- `THREE.Vector3.distanceTo`. -/
noncomputable def distanceTo (a b : V3) : ℝ := (a.sub b).length

/-- `THREE.Vector3.normalize`, which divides by `length() || 1`: a vector of
length zero is divided by 1, i.e. returned unchanged (it is the zero vector). -/
noncomputable def normalize (v : V3) : V3 :=
  if v.length = 0 then v else v.smul v.length⁻¹

theorem length_nonneg (v : V3) : 0 ≤ v.length := Real.sqrt_nonneg _

theorem length_eq_zero_iff {v : V3} : v.length = 0 ↔ v = ⟨0, 0, 0⟩ := by
  unfold length
  constructor
  · intro h
    have hsum : v.x ^ 2 + v.y ^ 2 + v.z ^ 2 = 0 := by
      have hnn : 0 ≤ v.x ^ 2 + v.y ^ 2 + v.z ^ 2 := by positivity
      nlinarith [Real.sq_sqrt hnn, Real.sqrt_nonneg (v.x ^ 2 + v.y ^ 2 + v.z ^ 2)]
    have hx : v.x = 0 := by nlinarith [sq_nonneg v.x, sq_nonneg v.y, sq_nonneg v.z]
    have hy : v.y = 0 := by nlinarith [sq_nonneg v.x, sq_nonneg v.y, sq_nonneg v.z]
    have hz : v.z = 0 := by nlinarith [sq_nonneg v.x, sq_nonneg v.y, sq_nonneg v.z]
    cases v; simp_all
  · intro h; subst h; simp [Real.sqrt_eq_zero']

theorem sq_length (v : V3) : v.length ^ 2 = v.x ^ 2 + v.y ^ 2 + v.z ^ 2 := by
  unfold length
  exact Real.sq_sqrt (by positivity)

theorem length_smul (v : V3) (c : ℝ) : (v.smul c).length = |c| * v.length := by
  unfold length smul
  have : (v.x * c) ^ 2 + (v.y * c) ^ 2 + (v.z * c) ^ 2
      = c ^ 2 * (v.x ^ 2 + v.y ^ 2 + v.z ^ 2) := by ring
  simp only [this]
  rw [Real.sqrt_mul (by positivity), Real.sqrt_sq_eq_abs]

theorem length_normalize {v : V3} (h : v.length ≠ 0) : v.normalize.length = 1 := by
  unfold normalize
  rw [if_neg h, length_smul, abs_inv, abs_of_nonneg (length_nonneg v),
    inv_mul_cancel₀ h]

theorem normalize_zero : (⟨0, 0, 0⟩ : V3).normalize = ⟨0, 0, 0⟩ := by
  unfold normalize
  rw [if_pos (length_eq_zero_iff.mpr rfl)]

theorem distanceTo_self (a : V3) : a.distanceTo a = 0 := by
  unfold distanceTo
  rw [length_eq_zero_iff]
  cases a; simp [sub]

theorem distanceTo_nonneg (a b : V3) : 0 ≤ a.distanceTo b := length_nonneg _

theorem distanceTo_comm (a b : V3) : a.distanceTo b = b.distanceTo a := by
  unfold distanceTo length sub
  ring_nf

theorem distanceTo_eq_zero_iff {a b : V3} : a.distanceTo b = 0 ↔ a = b := by
  unfold distanceTo
  rw [length_eq_zero_iff]
  cases a; cases b; simp [sub, mk.injEq, sub_eq_zero]

/-- Cauchy–Schwarz in three dimensions. -/
theorem dot_le_length_mul_length (a b : V3) : a.dot b ≤ a.length * b.length := by
  have hcs : (a.dot b) ^ 2 ≤ (a.x ^ 2 + a.y ^ 2 + a.z ^ 2) * (b.x ^ 2 + b.y ^ 2 + b.z ^ 2) := by
    unfold dot
    nlinarith [sq_nonneg (a.x * b.y - a.y * b.x), sq_nonneg (a.x * b.z - a.z * b.x),
      sq_nonneg (a.y * b.z - a.z * b.y)]
  have h1 : a.dot b ≤ |a.dot b| := le_abs_self _
  have h2 : |a.dot b| = Real.sqrt ((a.dot b) ^ 2) := (Real.sqrt_sq_eq_abs _).symm
  have h3 : Real.sqrt ((a.dot b) ^ 2)
      ≤ Real.sqrt ((a.x ^ 2 + a.y ^ 2 + a.z ^ 2) * (b.x ^ 2 + b.y ^ 2 + b.z ^ 2)) :=
    Real.sqrt_le_sqrt hcs
  have h4 : Real.sqrt ((a.x ^ 2 + a.y ^ 2 + a.z ^ 2) * (b.x ^ 2 + b.y ^ 2 + b.z ^ 2))
      = a.length * b.length := by
    unfold length
    rw [Real.sqrt_mul (by positivity)]
  linarith [h1, h3, h2 ▸ h1, h4 ▸ h3]

theorem length_add_le (a b : V3) : (a.add b).length ≤ a.length + b.length := by
  have hd := dot_le_length_mul_length a b
  have ha := sq_length a
  have hb := sq_length b
  have hub : (a.add b).x ^ 2 + (a.add b).y ^ 2 + (a.add b).z ^ 2
      ≤ (a.length + b.length) ^ 2 := by
    unfold add
    unfold dot at hd
    simp only at *
    nlinarith [hd, ha, hb]
  calc (a.add b).length
      = Real.sqrt ((a.add b).x ^ 2 + (a.add b).y ^ 2 + (a.add b).z ^ 2) := rfl
    _ ≤ Real.sqrt ((a.length + b.length) ^ 2) := Real.sqrt_le_sqrt hub
    _ = |a.length + b.length| := Real.sqrt_sq_eq_abs _
    _ = a.length + b.length :=
        abs_of_nonneg (add_nonneg (length_nonneg a) (length_nonneg b))

/-- Triangle inequality for `distanceTo`. -/
theorem distanceTo_triangle (a b c : V3) :
    a.distanceTo c ≤ a.distanceTo b + b.distanceTo c := by
  have h : a.sub c = (a.sub b).add (b.sub c) := by
    unfold sub add
    simp only [mk.injEq]
    refine ⟨by ring, by ring, by ring⟩
  unfold distanceTo
  rw [h]
  exact length_add_le _ _

end V3

/-- Quaternion with real components, embedding `THREE.Quaternion`. -/
structure Quat where
  x : ℝ
  y : ℝ
  z : ℝ
  w : ℝ

instance : Inhabited Quat := ⟨⟨0, 0, 0, 1⟩⟩

/-- Euler angles record, embedding `THREE.Euler` (order field unused here). -/
structure Euler3 where
  x : ℝ
  y : ℝ
  z : ℝ

/-- One articulation point of a chain (`Joint` interface of `ik.ts`),
with its optional `constraints` metadata. -/
structure Joint where
  name : String
  position : V3
  rotation : Quat
  minRotation : Option Euler3 := none
  maxRotation : Option Euler3 := none

instance : Inhabited Joint := ⟨⟨"", default, default, none, none⟩⟩

/-- The `IKChain` interface: named ordered joints plus a target.  The
`effector` field of the source is an alias of the last joint; the alias
structure is modelled separately for the construction claim, while the
solver (which indexes `joints` directly, never `effector`) works on this
record. -/
structure IKChain where
  name : String
  joints : List Joint
  target : V3

/-- Segment lengths measured from current positions: the `distances` array
computed at the top of `solve()` (`distances[i] = joints[i].position
.distanceTo(joints[i+1].position)`). -/
noncomputable def distances : List V3 → List ℝ
  | p :: q :: ps => p.distanceTo q :: distances (q :: ps)
  | _ => []

/-- One placement step shared by both passes: put the joint on the line from
the already-updated neighbour `anchor` toward the joint's previous position
`p`, at segment distance `d`
(`anchor + normalize(p − anchor) * d` in the source). -/
noncomputable def place (anchor p : V3) (d : ℝ) : V3 :=
  anchor.add (((p.sub anchor).normalize).smul d)

/-- The forward-reaching pass (`// Forward reach` in `solve()`): the last
joint is pinned onto the target, then joints are re-placed from the
second-to-last one down to the root (index 0 included). `ps` are the current
positions root-first, `ds` the measured segment lengths, `t` the target. -/
noncomputable def forwardReach : List V3 → List ℝ → V3 → List V3
  | [], _, _ => []
  | [_], _, t => [t]
  | p :: q :: ps, d :: ds, t =>
    let rest := forwardReach (q :: ps) ds t
    place rest.headI p d :: rest
  | _ :: _ :: _, [], _ => []

/-- The chained re-placement used by the backward-reaching pass (and, below,
shared in proofs): walk the list left-to-right, placing each joint at its
segment distance from the previously placed neighbour. -/
noncomputable def reachFrom : V3 → List V3 → List ℝ → List V3
  | _, [], _ => []
  | _, _ :: _, [] => []
  | a, p :: ps, d :: ds => place a p d :: reachFrom (place a p d) ps ds

/-- The backward-reaching pass (`// Backward reach` in `solve()`): the root
(index 0) is left untouched, and joints 1..n−1 are re-placed from their
predecessor. -/
noncomputable def backwardReach (ps : List V3) (ds : List ℝ) : List V3 :=
  match ps with
  | [] => []
  | p :: rest => p :: reachFrom p rest ds

/-- Position of the end effector as read by the solver
(`joints[joints.length - 1].position`). -/
def lastPos (ps : List V3) : V3 := ps.getLastD ⟨0, 0, 0⟩

/-- The straight-line extension of the unreachable-target branch: starting
from `currentPos = joints[0].position`, each next joint is placed at
`currentPos + direction * distances[i-1]`. -/
noncomputable def straightWalk (a dir : V3) : List ℝ → List V3
  | [] => []
  | d :: ds => a.add (dir.smul d) :: straightWalk (a.add (dir.smul d)) dir ds

/-- The iteration loop of `solve()`: run the two passes, then test
convergence of the effector against the target; stop at the first success,
give up when the iteration budget is exhausted. -/
noncomputable def solveLoop (ds : List ℝ) (t : V3) (tol : ℝ) :
    Nat → List V3 → Bool × List V3
  | 0, ps => (false, ps)
  | fuel + 1, ps =>
    let ps' := backwardReach (forwardReach ps ds t) ds
    if (lastPos ps').distanceTo t < tol then (true, ps')
    else solveLoop ds t tol fuel ps'

/-- Write a list of positions back into the chain's joints (the source
mutates `joints[i].position` in place; names, rotations and constraints
are untouched). -/
def setPositions (ch : IKChain) (ps : List V3) : IKChain :=
  { ch with joints := List.zipWith (fun j p => { j with position := p }) ch.joints ps }

/-- Positions of a chain's joints, root first. -/
def positionsOf (ch : IKChain) : List V3 := ch.joints.map Joint.position

/-- `FABRIKSolver.solve()` translated clause by clause: reject chains of
fewer than 2 joints; measure segment lengths (`distances`) and compare the
root-to-target distance with their sum (`totalDistance`); fully extend
toward an unreachable target and report `false`; otherwise iterate the two
passes up to `maxIterations` times. The source's local variables are
inlined here (`ps` is `positionsOf ch`, `ds` is `distances (positionsOf
ch)`). Returns the boolean result together with the updated chain. -/
noncomputable def solve (ch : IKChain) (tolerance : ℝ) (maxIterations : Nat) :
    Bool × IKChain :=
  if ch.joints.length < 2 then (false, ch)
  else if (distances (positionsOf ch)).sum
      < (positionsOf ch).headI.distanceTo ch.target then
    (false, setPositions ch
      ((positionsOf ch).headI ::
        straightWalk (positionsOf ch).headI
          ((ch.target.sub (positionsOf ch).headI).normalize)
          (distances (positionsOf ch))))
  else
    ((solveLoop (distances (positionsOf ch)) ch.target tolerance maxIterations
        (positionsOf ch)).1,
      setPositions ch
        (solveLoop (distances (positionsOf ch)) ch.target tolerance maxIterations
          (positionsOf ch)).2)

/-- Position of the chain's end effector (`chain.effector.position`, the
last joint). -/
def effectorPos (ch : IKChain) : V3 := lastPos (positionsOf ch)

/-- One full iteration of the loop body: the forward-reaching pass followed
by the backward-reaching pass. -/
noncomputable def iterStep (ds : List ℝ) (t : V3) (ps : List V3) : List V3 :=
  backwardReach (forwardReach ps ds t) ds

theorem distances_length : ∀ ps : List V3, (distances ps).length = ps.length - 1
  | [] => rfl
  | [_] => rfl
  | _ :: q :: ps => by
    rw [distances]
    simp only [List.length_cons]
    rw [distances_length (q :: ps)]
    simp

theorem distances_nonneg : ∀ ps : List V3, ∀ d ∈ distances ps, 0 ≤ d
  | [], _, h => by simp [distances] at h
  | [_], _, h => by simp [distances] at h
  | p :: q :: ps, d, h => by
    rw [distances] at h
    rcases List.mem_cons.mp h with h | h
    · exact h ▸ V3.distanceTo_nonneg p q
    · exact distances_nonneg (q :: ps) d h

theorem place_self (a : V3) (d : ℝ) : place a a d = a := by
  have hsub : a.sub a = ⟨0, 0, 0⟩ := by
    cases a; simp [V3.sub]
  unfold place
  rw [hsub, V3.normalize_zero]
  cases a; simp [V3.add, V3.smul]

theorem place_dist {d : ℝ} (hd : 0 ≤ d) (a p : V3) :
    (place a p d).distanceTo a = d ∨ place a p d = a := by
  by_cases h : (p.sub a).length = 0
  · right
    have hz : p.sub a = ⟨0, 0, 0⟩ := V3.length_eq_zero_iff.mp h
    unfold place
    rw [hz, V3.normalize_zero]
    cases a; simp [V3.add, V3.smul]
  · left
    have hsub : (place a p d).sub a = ((p.sub a).normalize).smul d := by
      unfold place
      cases a; simp [V3.add, V3.sub, V3.smul]
    unfold V3.distanceTo
    rw [hsub, V3.length_smul, V3.length_normalize h, mul_one, abs_of_nonneg hd]

theorem place_eq_of_dist {a p : V3} {d : ℝ} (h : p.distanceTo a = d) :
    place a p d = p := by
  by_cases hpa : p = a
  · subst hpa
    exact place_self p d
  · have hlen : (p.sub a).length = d := h
    have hd0 : d ≠ 0 := by
      intro h0
      exact hpa (V3.distanceTo_eq_zero_iff.mp (h0 ▸ h))
    have hne : (p.sub a).length ≠ 0 := hlen ▸ hd0
    unfold place V3.normalize
    rw [if_neg hne, hlen]
    rw [V3.ext_iff]
    cases a; cases p
    simp only [V3.add, V3.sub, V3.smul]
    refine ⟨by field_simp, by field_simp, by field_simp⟩

/-- `Linked a ps ds`: walking from `a` along `ps`, each point sits at the
corresponding segment distance from its predecessor, or coincides with it. -/
def Linked : V3 → List V3 → List ℝ → Prop
  | _, [], _ => True
  | _, _ :: _, [] => False
  | a, p :: ps, d :: ds => (p.distanceTo a = d ∨ p = a) ∧ Linked p ps ds

/-- `LinkedAll ps ds`: consecutive points of `ps` are chained by `ds`. -/
def LinkedAll : List V3 → List ℝ → Prop
  | [], _ => True
  | p :: ps, ds => Linked p ps ds

/-- On a list that is already chained, the re-placement pass is the
identity: each joint is placed exactly where it stood. -/
theorem reachFrom_fixed : ∀ (ps : List V3) (ds : List ℝ) (a : V3),
    Linked a ps ds → reachFrom a ps ds = ps
  | [], _, _, _ => rfl
  | _ :: _, [], _, h => absurd h (by simp [Linked])
  | p :: ps, d :: ds, a, h => by
    obtain ⟨h1, h2⟩ := h
    have hp : place a p d = p := by
      rcases h1 with h1 | h1
      · exact place_eq_of_dist h1
      · rw [h1]; exact place_self a d
    rw [reachFrom, hp, reachFrom_fixed ps ds p h2]

theorem getLastD_irrel {α : Type} : ∀ {l : List α}, l ≠ [] → ∀ d1 d2 : α,
    l.getLastD d1 = l.getLastD d2
  | [], h, _, _ => absurd rfl h
  | [_], _, _, _ => rfl
  | a :: b :: l, _, d1, d2 => by
    rw [List.getLastD_cons d1 a (b :: l), List.getLastD_cons d2 a (b :: l)]

theorem forwardReach_length : ∀ (ps : List V3) (ds : List ℝ) (t : V3),
    ps.length = ds.length + 1 → (forwardReach ps ds t).length = ps.length
  | [], _, _, h => by simp at h
  | [_], _, _, _ => by rw [forwardReach]; simp
  | p :: q :: ps, [], t, h => by simp at h
  | p :: q :: ps, d :: ds, t, h => by
    rw [forwardReach]
    simp only [List.length_cons]
    rw [forwardReach_length (q :: ps) ds t (by simpa using h)]
    simp

theorem forwardReach_ne_nil (ps : List V3) (ds : List ℝ) (t : V3)
    (h : ps.length = ds.length + 1) : forwardReach ps ds t ≠ [] := by
  have := forwardReach_length ps ds t h
  intro hnil
  rw [hnil] at this
  simp at this
  omega

/-- The forward-reaching pass pins the effector (last joint) exactly onto
the target. -/
theorem forwardReach_last : ∀ (ps : List V3) (ds : List ℝ) (t : V3),
    ps.length = ds.length + 1 → lastPos (forwardReach ps ds t) = t
  | [], _, _, h => by simp at h
  | [_], _, _, _ => by rw [forwardReach]; rfl
  | p :: q :: ps, [], t, h => by simp at h
  | p :: q :: ps, d :: ds, t, h => by
    have hlen : (q :: ps).length = ds.length + 1 := by simpa using h
    have hne := forwardReach_ne_nil (q :: ps) ds t hlen
    have hIH := forwardReach_last (q :: ps) ds t hlen
    rw [forwardReach]
    unfold lastPos at *
    rw [List.getLastD_cons]
    rw [getLastD_irrel hne _ ⟨0, 0, 0⟩]
    exact hIH

/-- After the forward-reaching pass, every pair of consecutive joints is at
its measured segment distance, or coincident (degenerate direction). -/
theorem forwardReach_linked : ∀ (ps : List V3) (ds : List ℝ) (t : V3),
    ps.length = ds.length + 1 → (∀ d ∈ ds, 0 ≤ d) →
    LinkedAll (forwardReach ps ds t) ds
  | [], _, _, h, _ => by simp at h
  | [_], ds, _, h, _ => by
    rw [forwardReach]
    have : ds = [] := by simpa using List.length_eq_zero.mp (by simpa using h.symm)
    subst this
    trivial
  | p :: q :: ps, [], t, h, _ => by simp at h
  | p :: q :: ps, d :: ds, t, h, hnn => by
    have hlen : (q :: ps).length = ds.length + 1 := by simpa using h
    have hIH := forwardReach_linked (q :: ps) ds t hlen
      (fun e he => hnn e (List.mem_cons_of_mem d he))
    have hne := forwardReach_ne_nil (q :: ps) ds t hlen
    rw [forwardReach]
    obtain ⟨r0, rs, hrest⟩ := List.exists_cons_of_ne_nil hne
    rw [hrest]
    rw [hrest] at hIH
    simp only [List.headI]
    unfold LinkedAll at hIH ⊢
    unfold Linked
    refine ⟨?_, hIH⟩
    have hd0 : 0 ≤ d := hnn d (List.mem_cons_self d ds)
    rcases place_dist hd0 r0 p with hc | hc
    · left; rw [V3.distanceTo_comm]; exact hc
    · right; exact hc.symm

/-- The backward-reaching pass never writes the root. -/
theorem backwardReach_headI (ps : List V3) (ds : List ℝ) :
    (backwardReach ps ds).headI = ps.headI := by
  cases ps <;> rfl

/-- On the output of the forward-reaching pass the backward-reaching pass is
the identity: the forward pass already left every consecutive pair at its
measured distance (or coincident), so each re-placement reproduces the
joint's position exactly. -/
theorem backwardReach_of_linked {ps : List V3} {ds : List ℝ}
    (h : LinkedAll ps ds) : backwardReach ps ds = ps := by
  cases ps with
  | nil => rfl
  | cons p rest =>
    show p :: reachFrom p rest ds = p :: rest
    rw [reachFrom_fixed rest ds p h]

theorem map_position_zipWith : ∀ (js : List Joint) (ps : List V3),
    ps.length = js.length →
    (List.zipWith (fun j p => { j with position := p }) js ps).map Joint.position = ps
  | [], [], _ => rfl
  | [], _ :: _, h => by simp at h
  | _ :: _, [], _ => rfl
  | j :: js, p :: ps, h => by
    rw [List.zipWith_cons_cons, List.map_cons,
      map_position_zipWith js ps (by simpa using h)]

theorem positionsOf_setPositions {ch : IKChain} {ps : List V3}
    (h : ps.length = ch.joints.length) :
    positionsOf (setPositions ch ps) = ps :=
  map_position_zipWith ch.joints ps h

theorem positionsOf_length (ch : IKChain) :
    (positionsOf ch).length = ch.joints.length := List.length_map _ _

theorem setPositions_joints_length (ch : IKChain) (ps : List V3) :
    (setPositions ch ps).joints.length = min ch.joints.length ps.length := by
  unfold setPositions
  simp

/-- A chain of fewer than 2 joints is rejected with no mutation. -/
theorem solve_lt_two {ch : IKChain} {tol : ℝ} {it : Nat}
    (h : ch.joints.length < 2) : solve ch tol it = (false, ch) := by
  unfold solve
  rw [if_pos h]

/-- The unreachable-target branch of `solve()`. -/
theorem solve_unreachable {ch : IKChain} {tol : ℝ} {it : Nat}
    (h2 : ¬ ch.joints.length < 2)
    (hu : (distances (positionsOf ch)).sum
      < (positionsOf ch).headI.distanceTo ch.target) :
    solve ch tol it = (false, setPositions ch
      ((positionsOf ch).headI ::
        straightWalk (positionsOf ch).headI
          ((ch.target.sub (positionsOf ch).headI).normalize)
          (distances (positionsOf ch)))) := by
  unfold solve
  rw [if_neg h2, if_pos hu]

/-- The reachable branch of `solve()` dispatches to the iteration loop. -/
theorem solve_reachable {ch : IKChain} {tol : ℝ} {it : Nat}
    (h2 : ¬ ch.joints.length < 2)
    (hr : ¬ (distances (positionsOf ch)).sum
      < (positionsOf ch).headI.distanceTo ch.target) :
    solve ch tol it =
      ((solveLoop (distances (positionsOf ch)) ch.target tol it (positionsOf ch)).1,
        setPositions ch
          (solveLoop (distances (positionsOf ch)) ch.target tol it (positionsOf ch)).2) := by
  unfold solve
  rw [if_neg h2, if_neg hr]

/-- Under measured distances, one loop iteration is just the forward pass:
the backward pass reproduces every position the forward pass computed. -/
theorem iterStep_eq_forwardReach {ps : List V3} {ds : List ℝ} {t : V3}
    (hlen : ps.length = ds.length + 1) (hnn : ∀ d ∈ ds, 0 ≤ d) :
    iterStep ds t ps = forwardReach ps ds t := by
  unfold iterStep
  exact backwardReach_of_linked (forwardReach_linked ps ds t hlen hnn)

/-- With a positive tolerance, at least one allowed iteration, and measured
segment distances, the loop accepts after its first iteration: the forward
pass pins the effector exactly onto the target and the backward pass keeps
it there. -/
theorem solveLoop_first {ps : List V3} {ds : List ℝ} {t : V3} {tol : ℝ}
    {fuel : Nat} (hlen : ps.length = ds.length + 1) (hnn : ∀ d ∈ ds, 0 ≤ d)
    (htol : 0 < tol) :
    solveLoop ds t tol (fuel + 1) ps = (true, forwardReach ps ds t) := by
  have hstep : backwardReach (forwardReach ps ds t) ds = forwardReach ps ds t :=
    backwardReach_of_linked (forwardReach_linked ps ds t hlen hnn)
  rw [solveLoop]
  simp only [hstep]
  rw [forwardReach_last ps ds t hlen, V3.distanceTo_self, if_pos htol]

/-- The reachable case of `solve()`, fully resolved: with at least 2 joints,
a target within total reach, a positive tolerance and a positive iteration
budget, the result is `true` and the final joint positions are exactly the
output of one forward-reaching pass over the pre-solve positions. -/
theorem solve_reachable_resolved {ch : IKChain} {tol : ℝ} {it : Nat}
    (h2 : ¬ ch.joints.length < 2)
    (hr : ¬ (distances (positionsOf ch)).sum
      < (positionsOf ch).headI.distanceTo ch.target)
    (htol : 0 < tol) (hit : 1 ≤ it) :
    solve ch tol it = (true, setPositions ch
      (forwardReach (positionsOf ch) (distances (positionsOf ch)) ch.target)) := by
  obtain ⟨m, rfl⟩ : ∃ m, it = m + 1 := ⟨it - 1, by omega⟩
  have hlen : (positionsOf ch).length = (distances (positionsOf ch)).length + 1 := by
    rw [distances_length, positionsOf_length]
    omega
  rw [solve_reachable h2 hr,
    solveLoop_first hlen (distances_nonneg (positionsOf ch)) htol]

/-- Full characterization of the iteration loop: a `true` result identifies
the first iteration whose post-pass effector is within tolerance and the
returned positions are that iteration's; a `false` result means no executed
iteration converged and the returned positions are the last iteration's. -/
theorem solveLoop_spec (ds : List ℝ) (t : V3) (tol : ℝ) :
    ∀ (fuel : Nat) (ps : List V3),
    ((solveLoop ds t tol fuel ps).1 = true →
      ∃ k, k < fuel ∧
        (∀ j, j < k →
          ¬ (lastPos ((iterStep ds t)^[j + 1] ps)).distanceTo t < tol) ∧
        (lastPos ((iterStep ds t)^[k + 1] ps)).distanceTo t < tol ∧
        (solveLoop ds t tol fuel ps).2 = (iterStep ds t)^[k + 1] ps) ∧
    ((solveLoop ds t tol fuel ps).1 = false →
      (∀ k, k < fuel →
        ¬ (lastPos ((iterStep ds t)^[k + 1] ps)).distanceTo t < tol) ∧
      (solveLoop ds t tol fuel ps).2 = (iterStep ds t)^[fuel] ps)
  | 0, ps => by
    constructor
    · intro h
      simp [solveLoop] at h
    · intro _
      exact ⟨fun k hk => absurd hk (by omega), rfl⟩
  | fuel + 1, ps => by
    have hIH := solveLoop_spec ds t tol fuel (iterStep ds t ps)
    have hsucc : solveLoop ds t tol (fuel + 1) ps =
        if (lastPos (iterStep ds t ps)).distanceTo t < tol
        then (true, iterStep ds t ps)
        else solveLoop ds t tol fuel (iterStep ds t ps) := rfl
    rw [hsucc]
    by_cases hc : (lastPos (iterStep ds t ps)).distanceTo t < tol
    · simp only [if_pos hc]
      constructor
      · intro _
        exact ⟨0, by omega, fun j hj => absurd hj (by omega),
          by simpa [Function.iterate_one] using hc,
          by simp [Function.iterate_one]⟩
      · intro h
        simp at h
    · simp only [if_neg hc]
      constructor
      · intro h
        obtain ⟨k, hk, hbefore, hconv, hstate⟩ := hIH.1 h
        refine ⟨k + 1, by omega, ?_, ?_, ?_⟩
        · intro j hj
          match j with
          | 0 => simpa [Function.iterate_one] using hc
          | j + 1 =>
            have := hbefore j (by omega)
            rwa [← Function.iterate_succ_apply] at this
        · rwa [← Function.iterate_succ_apply] at hconv
        · rwa [← Function.iterate_succ_apply] at hstate
      · intro h
        obtain ⟨hnone, hstate⟩ := hIH.2 h
        refine ⟨?_, ?_⟩
        · intro k hk
          match k with
          | 0 => simpa [Function.iterate_one] using hc
          | k + 1 =>
            have := hnone k (by omega)
            rwa [← Function.iterate_succ_apply] at this
        · rwa [← Function.iterate_succ_apply] at hstate

/-- The distance from the head of a polyline to its last vertex is at most
the sum of its segment lengths. -/
theorem dist_head_last_le_sum : ∀ (p : V3) (ps : List V3),
    p.distanceTo (lastPos (p :: ps)) ≤ (distances (p :: ps)).sum
  | p, [] => by
    unfold lastPos
    simp [V3.distanceTo_self, distances]
  | p, q :: ps => by
    have hIH := dist_head_last_le_sum q ps
    have hlast : lastPos (p :: q :: ps) = lastPos (q :: ps) := by
      unfold lastPos
      rw [List.getLastD_cons ⟨0, 0, 0⟩ p (q :: ps)]
      exact getLastD_irrel (List.cons_ne_nil q ps) _ _
    rw [hlast, distances]
    calc p.distanceTo (lastPos (q :: ps))
        ≤ p.distanceTo q + q.distanceTo (lastPos (q :: ps)) :=
          V3.distanceTo_triangle _ _ _
      _ ≤ p.distanceTo q + (distances (q :: ps)).sum := by linarith
      _ = (p.distanceTo q :: distances (q :: ps)).sum := by simp

/-- Index-wise reading of `LinkedAll`: every consecutive pair is at its
recorded distance or coincident. -/
theorem linkedAll_getD : ∀ (qs : List V3) (ds : List ℝ), LinkedAll qs ds →
    ∀ i, i + 1 < qs.length →
    ((qs.getD i default).distanceTo (qs.getD (i + 1) default) = ds.getD i 0 ∨
      qs.getD i default = qs.getD (i + 1) default)
  | [], _, _, i, hi => absurd hi (by simp)
  | [_], _, _, i, hi => absurd hi (by simp)
  | q1 :: q2 :: qs, [], h, _, _ => absurd h (by simp [LinkedAll, Linked])
  | q1 :: q2 :: qs, d :: ds, h, i, hi => by
    obtain ⟨h1, h2⟩ := h
    match i with
    | 0 =>
      simp only [List.getD_cons_zero, List.getD_cons_succ]
      rcases h1 with h1 | h1
      · left
        rw [V3.distanceTo_comm]
        exact h1
      · right
        exact h1.symm
    | i + 1 =>
      have := linkedAll_getD (q2 :: qs) ds h2 i (by simpa using hi)
      simpa using this

/-- The positions of any chain are chained by their own measured
distances. -/
theorem linkedAll_distances : ∀ ps : List V3, LinkedAll ps (distances ps)
  | [] => trivial
  | [_] => trivial
  | p :: q :: ps => by
    rw [distances]
    refine ⟨Or.inl (V3.distanceTo_comm q p ▸ rfl), ?_⟩
    exact linkedAll_distances (q :: ps)

/-- The straight-line extension produces points chained by `ds` whenever the
direction is a unit vector. -/
theorem straightWalk_linked {dir : V3} (hdir : dir.length = 1) :
    ∀ (ds : List ℝ) (a : V3), (∀ d ∈ ds, 0 ≤ d) →
    Linked a (straightWalk a dir ds) ds
  | [], _, _ => trivial
  | d :: ds, a, hnn => by
    rw [straightWalk]
    refine ⟨?_, straightWalk_linked hdir ds _
      (fun e he => hnn e (List.mem_cons_of_mem d he))⟩
    left
    have hsub : (a.add (dir.smul d)).sub a = dir.smul d := by
      cases a; cases dir
      simp [V3.add, V3.sub, V3.smul]
    unfold V3.distanceTo
    rw [hsub, V3.length_smul, hdir, mul_one,
      abs_of_nonneg (hnn d (List.mem_cons_self d ds))]

theorem iterate_iterStep_length {ds : List ℝ} {t : V3} {ps : List V3}
    (hlen : ps.length = ds.length + 1) (hnn : ∀ d ∈ ds, 0 ≤ d) :
    ∀ m, ((iterStep ds t)^[m] ps).length = ps.length := by
  intro m
  induction m with
  | zero => rfl
  | succ m ih =>
    rw [Function.iterate_succ_apply',
      iterStep_eq_forwardReach (ih.trans hlen) hnn,
      forwardReach_length _ _ _ (ih.trans hlen), ih]

theorem iterate_iterStep_eq_forward {ds : List ℝ} {t : V3} {ps : List V3}
    (hlen : ps.length = ds.length + 1) (hnn : ∀ d ∈ ds, 0 ≤ d) (m : Nat) :
    (iterStep ds t)^[m + 1] ps =
      forwardReach ((iterStep ds t)^[m] ps) ds t := by
  rw [Function.iterate_succ_apply',
    iterStep_eq_forwardReach ((iterate_iterStep_length hlen hnn m).trans hlen) hnn]

/-- Every state produced by at least one loop iteration has its effector
pinned exactly onto the target. -/
theorem iterate_iterStep_last {ds : List ℝ} {t : V3} {ps : List V3}
    (hlen : ps.length = ds.length + 1) (hnn : ∀ d ∈ ds, 0 ≤ d) (m : Nat) :
    lastPos ((iterStep ds t)^[m + 1] ps) = t := by
  rw [iterate_iterStep_eq_forward hlen hnn m]
  exact forwardReach_last _ _ _ ((iterate_iterStep_length hlen hnn m).trans hlen)

/-- Every state produced by the loop (zero or more iterations of a chain
whose `ds` are its own measured distances) is chained by `ds`. -/
theorem iterate_iterStep_linked {ds : List ℝ} {t : V3} {ps : List V3}
    (hlen : ps.length = ds.length + 1) (hnn : ∀ d ∈ ds, 0 ≤ d)
    (hinit : LinkedAll ps ds) :
    ∀ m, LinkedAll ((iterStep ds t)^[m] ps) ds := by
  intro m
  cases m with
  | zero => exact hinit
  | succ m =>
    rw [iterate_iterStep_eq_forward hlen hnn m]
    exact forwardReach_linked _ _ _
      ((iterate_iterStep_length hlen hnn m).trans hlen) hnn

theorem straightWalk_length (dir : V3) :
    ∀ (ds : List ℝ) (a : V3), (straightWalk a dir ds).length = ds.length
  | [], _ => rfl
  | d :: ds, a => by
    rw [straightWalk]
    simp only [List.length_cons]
    rw [straightWalk_length dir ds _]

theorem straightWalk_getD (dir : V3) :
    ∀ (ds : List ℝ) (a : V3) (i : Nat), i < ds.length →
    (a :: straightWalk a dir ds).getD (i + 1) default =
      ((a :: straightWalk a dir ds).getD i default).add
        (dir.smul (ds.getD i 0))
  | [], _, i, hi => absurd hi (by simp)
  | d :: ds, a, 0, _ => by
    rw [straightWalk]
    simp
  | d :: ds, a, i + 1, hi => by
    have hIH := straightWalk_getD dir ds (a.add (dir.smul d)) i (by simpa using hi)
    rw [straightWalk]
    simpa using hIH

/-- Whatever the loop returns, its final state is some number of iterations
of the two passes applied to the initial positions. -/
theorem solveLoop_snd_iterate (ds : List ℝ) (t : V3) (tol : ℝ)
    (fuel : Nat) (ps : List V3) :
    ∃ m, (solveLoop ds t tol fuel ps).2 = (iterStep ds t)^[m] ps := by
  have hspec := solveLoop_spec ds t tol fuel ps
  cases hb : (solveLoop ds t tol fuel ps).1 with
  | true =>
    obtain ⟨k, _, _, _, hstate⟩ := hspec.1 hb
    exact ⟨k + 1, hstate⟩
  | false =>
    obtain ⟨_, hstate⟩ := hspec.2 hb
    exact ⟨fuel, hstate⟩

theorem setPositions_target (ch : IKChain) (ps : List V3) :
    (setPositions ch ps).target = ch.target := rfl

theorem effectorPos_setPositions {ch : IKChain} {ps : List V3}
    (h : ps.length = ch.joints.length) :
    effectorPos (setPositions ch ps) = lastPos ps := by
  unfold effectorPos
  rw [positionsOf_setPositions h]

/-- `solve` always returns a chain with the same number of joints. -/
theorem solve_joints_length (ch : IKChain) (tol : ℝ) (it : Nat) :
    ((solve ch tol it).2).joints.length = ch.joints.length := by
  by_cases h2 : ch.joints.length < 2
  · rw [solve_lt_two h2]
  · have hlen : (positionsOf ch).length = (distances (positionsOf ch)).length + 1 := by
      rw [distances_length, positionsOf_length]
      omega
    by_cases hu : (distances (positionsOf ch)).sum
        < (positionsOf ch).headI.distanceTo ch.target
    · rw [solve_unreachable h2 hu]
      show (setPositions ch _).joints.length = _
      rw [setPositions_joints_length]
      simp only [List.length_cons, straightWalk_length, distances_length,
        positionsOf_length]
      omega
    · rw [solve_reachable h2 hu]
      show (setPositions ch _).joints.length = _
      rw [setPositions_joints_length]
      obtain ⟨m, hm⟩ := solveLoop_snd_iterate (distances (positionsOf ch))
        ch.target tol it (positionsOf ch)
      rw [hm, iterate_iterStep_length hlen (distances_nonneg _) m,
        positionsOf_length]
      omega

theorem lengthY (d : ℝ) : (⟨0, d, 0⟩ : V3).length = |d| := by
  show Real.sqrt ((0 : ℝ) ^ 2 + d ^ 2 + 0 ^ 2) = |d|
  rw [show (0 : ℝ) ^ 2 + d ^ 2 + 0 ^ 2 = d ^ 2 by ring, Real.sqrt_sq_eq_abs]

theorem distY (a b : ℝ) : (⟨0, a, 0⟩ : V3).distanceTo ⟨0, b, 0⟩ = |a - b| := by
  have hsub : (⟨0, a, 0⟩ : V3).sub ⟨0, b, 0⟩ = ⟨0, a - b, 0⟩ := by
    simp [V3.sub]
  unfold V3.distanceTo
  rw [hsub, lengthY]

theorem normalizeY {d : ℝ} (hd : d ≠ 0) :
    (⟨0, d, 0⟩ : V3).normalize = ⟨0, d / |d|, 0⟩ := by
  unfold V3.normalize
  rw [lengthY, if_neg (abs_ne_zero.mpr hd)]
  simp [V3.smul, div_eq_mul_inv]

theorem addY_smulY (a c d : ℝ) :
    (⟨0, a, 0⟩ : V3).add ((⟨0, c, 0⟩ : V3).smul d) = ⟨0, a + c * d, 0⟩ := by
  simp [V3.add, V3.smul]

theorem placeY_lt {a p : ℝ} (h : p < a) (d : ℝ) :
    place ⟨0, a, 0⟩ ⟨0, p, 0⟩ d = ⟨0, a - d, 0⟩ := by
  have hsub : (⟨0, p, 0⟩ : V3).sub ⟨0, a, 0⟩ = ⟨0, p - a, 0⟩ := by
    simp [V3.sub]
  have hdir : (⟨0, p - a, 0⟩ : V3).normalize = ⟨0, -1, 0⟩ := by
    rw [normalizeY (by linarith : p - a ≠ 0), abs_of_neg (by linarith : p - a < 0)]
    rw [V3.ext_iff]
    refine ⟨rfl, ?_, rfl⟩
    rw [div_eq_iff (by linarith : -(p - a) ≠ 0)]
    ring
  unfold place
  rw [hsub, hdir, addY_smulY]
  rw [V3.ext_iff]
  refine ⟨rfl, by ring, rfl⟩

theorem placeY_gt {a p : ℝ} (h : a < p) (d : ℝ) :
    place ⟨0, a, 0⟩ ⟨0, p, 0⟩ d = ⟨0, a + d, 0⟩ := by
  have hsub : (⟨0, p, 0⟩ : V3).sub ⟨0, a, 0⟩ = ⟨0, p - a, 0⟩ := by
    simp [V3.sub]
  have hdir : (⟨0, p - a, 0⟩ : V3).normalize = ⟨0, 1, 0⟩ := by
    rw [normalizeY (by linarith : p - a ≠ 0), abs_of_pos (by linarith : 0 < p - a)]
    rw [V3.ext_iff]
    refine ⟨rfl, ?_, rfl⟩
    rw [div_eq_iff (by linarith : (p - a : ℝ) ≠ 0)]
    ring
  unfold place
  rw [hsub, hdir, addY_smulY]
  rw [V3.ext_iff]
  refine ⟨rfl, by ring, rfl⟩

/-- A joint literal used by the concrete test chains (identity rotation, no
constraints, like a freshly constructed `THREE.Bone`). -/
def testJoint (nm : String) (p : V3) : Joint :=
  { name := nm, position := p, rotation := ⟨0, 0, 0, 1⟩ }

/-- The three-joint test chain of the spec and the repository's test suite:
joints at `(0,0,0), (0,1,0), (0,2,0)` (segment lengths 1 and 1), aimed at a
parameterized target. -/
def chain3 (t : V3) : IKChain :=
  { name := "solver",
    joints := [testJoint "b_0" ⟨0, 0, 0⟩, testJoint "b_1" ⟨0, 1, 0⟩,
      testJoint "b_2" ⟨0, 2, 0⟩],
    target := t }

/-- The two-joint chain used to exhibit the degenerate target-at-root
case. -/
def chain2deg : IKChain :=
  { name := "deg",
    joints := [testJoint "a" ⟨0, 0, 0⟩, testJoint "b" ⟨0, 1, 0⟩],
    target := ⟨0, 0, 0⟩ }

/-- A single-joint chain (invalid input for the solver). -/
def chain1 : IKChain :=
  { name := "single", joints := [testJoint "solo" ⟨0, 0, 0⟩], target := ⟨1, 2, 3⟩ }

theorem chain3_positions (t : V3) :
    positionsOf (chain3 t) = [⟨0, 0, 0⟩, ⟨0, 1, 0⟩, ⟨0, 2, 0⟩] := rfl

theorem distances3 :
    distances [⟨0, 0, 0⟩, ⟨0, 1, 0⟩, ⟨0, 2, 0⟩] = [1, 1] := by
  show V3.distanceTo ⟨0, 0, 0⟩ ⟨0, 1, 0⟩ ::
    distances [⟨0, 1, 0⟩, ⟨0, 2, 0⟩] = [1, 1]
  show V3.distanceTo ⟨0, 0, 0⟩ ⟨0, 1, 0⟩ ::
    V3.distanceTo ⟨0, 1, 0⟩ ⟨0, 2, 0⟩ :: distances [⟨0, 2, 0⟩] = [1, 1]
  rw [distY, distY]
  norm_num
  rfl

theorem chain3_distances (t : V3) :
    distances (positionsOf (chain3 t)) = [1, 1] := by
  rw [chain3_positions]
  exact distances3

/-- The forward-reaching pass on the test chain aimed at `(0, 1.5, 0)`:
the effector is pinned to the target and the walk down the chain lands the
middle joint at `(0, 0.5, 0)` and the root at `(0, -0.5, 0)` — the root
moves. -/
theorem forwardReach_chain3 :
    forwardReach [⟨0, 0, 0⟩, ⟨0, 1, 0⟩, ⟨0, 2, 0⟩] [1, 1] ⟨0, 1.5, 0⟩ =
      [⟨0, -0.5, 0⟩, ⟨0, 0.5, 0⟩, ⟨0, 1.5, 0⟩] := by
  have e1 : forwardReach [⟨0, 2, 0⟩] ([] : List ℝ) ⟨0, 1.5, 0⟩ =
      [(⟨0, 1.5, 0⟩ : V3)] := by
    rw [forwardReach]
  have e2 : forwardReach [⟨0, 1, 0⟩, ⟨0, 2, 0⟩] [1] ⟨0, 1.5, 0⟩ =
      [⟨0, 0.5, 0⟩, ⟨0, 1.5, 0⟩] := by
    rw [forwardReach, e1]
    show place ⟨0, 1.5, 0⟩ ⟨0, 1, 0⟩ 1 :: [(⟨0, 1.5, 0⟩ : V3)] = _
    rw [placeY_lt (by norm_num) 1]
    norm_num
  rw [forwardReach, e2]
  show place ⟨0, 0.5, 0⟩ ⟨0, 0, 0⟩ 1 :: [(⟨0, 0.5, 0⟩ : V3), ⟨0, 1.5, 0⟩] = _
  rw [placeY_lt (by norm_num) 1]
  norm_num

/-- **C6**: for every chain with fewer than 2 joints, `solve()` immediately
returns `false` without mutating any joint's position or rotation or the
target: the returned chain is the input chain itself. -/
theorem C6_invalid_chain_rejected (ch : IKChain) (tol : ℝ) (it : Nat)
    (h : ch.joints.length < 2) :
    (solve ch tol it).1 = false ∧ (solve ch tol it).2 = ch := by
  rw [solve_lt_two h]
  exact ⟨rfl, rfl⟩

theorem C6_invalid_chain_rejected_witness :
    chain1.joints.length < 2 ∧
    ((solve chain1 0.01 10).1 = false ∧ (solve chain1 0.01 10).2 = chain1) :=
  ⟨by simp [chain1], C6_invalid_chain_rejected chain1 0.01 10 (by simp [chain1])⟩

/-- **C3**: when the root-to-target distance strictly exceeds the total of
the measured segment lengths, `solve()` skips the loop, returns `false`,
leaves the root unchanged, and places each subsequent joint at
`Jᵢ = Jᵢ₋₁ + normalize(target − J₀) · Lᵢ₋₁`. -/
theorem C3_unreachable_straight_line (ch : IKChain) (tol : ℝ) (it : Nat)
    (h2 : 2 ≤ ch.joints.length)
    (hu : (distances (positionsOf ch)).sum
      < (positionsOf ch).headI.distanceTo ch.target) :
    (solve ch tol it).1 = false ∧
    (positionsOf ((solve ch tol it).2)).headI = (positionsOf ch).headI ∧
    ∀ i, i + 1 < ch.joints.length →
      (positionsOf ((solve ch tol it).2)).getD (i + 1) default =
        ((positionsOf ((solve ch tol it).2)).getD i default).add
          (((ch.target.sub (positionsOf ch).headI).normalize).smul
            ((distances (positionsOf ch)).getD i 0)) := by
  have h2' : ¬ ch.joints.length < 2 := by omega
  rw [solve_unreachable h2' hu]
  have hlen : ((positionsOf ch).headI ::
      straightWalk (positionsOf ch).headI
        ((ch.target.sub (positionsOf ch).headI).normalize)
        (distances (positionsOf ch))).length = ch.joints.length := by
    simp only [List.length_cons, straightWalk_length, distances_length,
      positionsOf_length]
    omega
  refine ⟨rfl, ?_, ?_⟩
  · rw [positionsOf_setPositions hlen]
    rfl
  · intro i hi
    rw [positionsOf_setPositions hlen]
    exact straightWalk_getD _ (distances (positionsOf ch)) _ i
      (by rw [distances_length, positionsOf_length]; omega)

theorem C3_unreachable_straight_line_witness :
    (2 ≤ (chain3 ⟨0, 5, 0⟩).joints.length ∧
      (distances (positionsOf (chain3 ⟨0, 5, 0⟩))).sum
        < (positionsOf (chain3 ⟨0, 5, 0⟩)).headI.distanceTo
          (chain3 ⟨0, 5, 0⟩).target) ∧
    ((solve (chain3 ⟨0, 5, 0⟩) 0.01 10).1 = false ∧
      (positionsOf ((solve (chain3 ⟨0, 5, 0⟩) 0.01 10).2)).headI
        = (positionsOf (chain3 ⟨0, 5, 0⟩)).headI ∧
      ∀ i, i + 1 < (chain3 ⟨0, 5, 0⟩).joints.length →
        (positionsOf ((solve (chain3 ⟨0, 5, 0⟩) 0.01 10).2)).getD (i + 1) default =
          ((positionsOf ((solve (chain3 ⟨0, 5, 0⟩) 0.01 10).2)).getD i default).add
            ((((chain3 ⟨0, 5, 0⟩).target.sub
                (positionsOf (chain3 ⟨0, 5, 0⟩)).headI).normalize).smul
              ((distances (positionsOf (chain3 ⟨0, 5, 0⟩))).getD i 0))) ∧
    positionsOf ((solve (chain3 ⟨0, 5, 0⟩) 0.01 10).2)
      = [⟨0, 0, 0⟩, ⟨0, 1, 0⟩, ⟨0, 2, 0⟩] := by
  have hh : (2 ≤ (chain3 ⟨0, 5, 0⟩).joints.length ∧
      (distances (positionsOf (chain3 ⟨0, 5, 0⟩))).sum
        < (positionsOf (chain3 ⟨0, 5, 0⟩)).headI.distanceTo
          (chain3 ⟨0, 5, 0⟩).target) := by
    constructor
    · simp [chain3, testJoint]
    · rw [chain3_distances]
      show (1 : ℝ) + (1 + 0) < V3.distanceTo ⟨0, 0, 0⟩ ⟨0, 5, 0⟩
      rw [distY]
      norm_num
  refine ⟨hh, C3_unreachable_straight_line (chain3 ⟨0, 5, 0⟩) 0.01 10 hh.1 hh.2, ?_⟩
  have h2' : ¬ (chain3 ⟨0, 5, 0⟩).joints.length < 2 := by simp [chain3, testJoint]
  rw [solve_unreachable h2' hh.2]
  have hdir : (((chain3 ⟨0, 5, 0⟩).target.sub
      (positionsOf (chain3 ⟨0, 5, 0⟩)).headI).normalize) = ⟨0, 1, 0⟩ := by
    show ((⟨0, 5, 0⟩ : V3).sub ⟨0, 0, 0⟩).normalize = ⟨0, 1, 0⟩
    have hsub : (⟨0, 5, 0⟩ : V3).sub ⟨0, 0, 0⟩ = ⟨0, 5, 0⟩ := by simp [V3.sub]
    rw [hsub, normalizeY (by norm_num : (5 : ℝ) ≠ 0)]
    norm_num
  have hlen : ((positionsOf (chain3 ⟨0, 5, 0⟩)).headI ::
      straightWalk (positionsOf (chain3 ⟨0, 5, 0⟩)).headI
        (((chain3 ⟨0, 5, 0⟩).target.sub
          (positionsOf (chain3 ⟨0, 5, 0⟩)).headI).normalize)
        (distances (positionsOf (chain3 ⟨0, 5, 0⟩)))).length
      = (chain3 ⟨0, 5, 0⟩).joints.length := by
    simp only [List.length_cons, straightWalk_length, distances_length,
      positionsOf_length]
    simp [chain3, testJoint]
  rw [positionsOf_setPositions hlen, hdir, chain3_distances]
  show (⟨0, 0, 0⟩ : V3) :: straightWalk ⟨0, 0, 0⟩ ⟨0, 1, 0⟩ [1, 1] = _
  rw [straightWalk, straightWalk, straightWalk]
  rw [addY_smulY]
  norm_num
  rw [addY_smulY]
  norm_num

theorem chain3_lt_two_false (t : V3) : ¬ (chain3 t).joints.length < 2 := by
  simp [chain3, testJoint]

theorem chain3_reachable :
    ¬ (distances (positionsOf (chain3 ⟨0, 1.5, 0⟩))).sum
      < (positionsOf (chain3 ⟨0, 1.5, 0⟩)).headI.distanceTo
        (chain3 ⟨0, 1.5, 0⟩).target := by
  rw [chain3_distances]
  show ¬ (1 : ℝ) + (1 + 0) < V3.distanceTo ⟨0, 0, 0⟩ ⟨0, 1.5, 0⟩
  rw [distY]
  norm_num [abs_le]

/-- Fully resolved solve on the test chain aimed at the reachable target
`(0, 1.5, 0)`: one iteration converges and the final positions are the
forward-pass output (root displaced to `(0, -0.5, 0)`). -/
theorem solve_chain3_resolved (tol : ℝ) (it : Nat) (htol : 0 < tol)
    (hit : 1 ≤ it) :
    solve (chain3 ⟨0, 1.5, 0⟩) tol it =
      (true, setPositions (chain3 ⟨0, 1.5, 0⟩)
        [⟨0, -0.5, 0⟩, ⟨0, 0.5, 0⟩, ⟨0, 1.5, 0⟩]) := by
  rw [solve_reachable_resolved (chain3_lt_two_false _) chain3_reachable htol hit,
    chain3_positions, distances3]
  have ht : (chain3 ⟨0, 1.5, 0⟩).target = ⟨0, 1.5, 0⟩ := rfl
  rw [ht, forwardReach_chain3]

/-- **C1 counterexample**: on the 3-joint chain at (0,0,0),(0,1,0),(0,2,0)
with the reachable target (0,1.5,0), one `solve()` call (which converges,
returning `true` after one full iteration) leaves the root at (0,-0.5,0):
the forward pass displaced it, and the backward pass — which starts walking
from index 1 — never restores it. The root does move across a `solve()`
call, contrary to the claim. -/
theorem C1_root_moves_counterexample :
    ((positionsOf (chain3 ⟨0, 1.5, 0⟩)).headI.distanceTo
        (chain3 ⟨0, 1.5, 0⟩).target
      ≤ (distances (positionsOf (chain3 ⟨0, 1.5, 0⟩))).sum) ∧
    (solve (chain3 ⟨0, 1.5, 0⟩) 0.01 10).1 = true ∧
    (positionsOf ((solve (chain3 ⟨0, 1.5, 0⟩) 0.01 10).2)).headI
      = ⟨0, -0.5, 0⟩ ∧
    (positionsOf ((solve (chain3 ⟨0, 1.5, 0⟩) 0.01 10).2)).headI
      ≠ (positionsOf (chain3 ⟨0, 1.5, 0⟩)).headI := by
  have hsolve := solve_chain3_resolved 0.01 10 (by norm_num) (by norm_num)
  have hpos : positionsOf ((solve (chain3 ⟨0, 1.5, 0⟩) 0.01 10).2)
      = [⟨0, -0.5, 0⟩, ⟨0, 0.5, 0⟩, ⟨0, 1.5, 0⟩] := by
    rw [hsolve]
    exact positionsOf_setPositions (by simp [chain3, testJoint])
  refine ⟨not_lt.mp chain3_reachable, by rw [hsolve], ?_, ?_⟩
  · rw [hpos]
    rfl
  · rw [hpos, chain3_positions]
    intro h
    have := (V3.ext_iff.mp h).2.1
    norm_num at this

/-- **C1 amended**: on a reachable chain with at least 2 joints, positive
tolerance and a positive iteration budget, `solve()` converges after its
first iteration and the final root position is the root computed by the
*forward* pass over the pre-solve positions — the backward pass never
writes index 0 (second conjunct) — which in general differs from the
pre-solve root position (see the counterexample). -/
theorem C1_root_is_forward_pass_root (ch : IKChain) (tol : ℝ) (it : Nat)
    (h2 : 2 ≤ ch.joints.length)
    (hr : (positionsOf ch).headI.distanceTo ch.target
      ≤ (distances (positionsOf ch)).sum)
    (htol : 0 < tol) (hit : 1 ≤ it) :
    ((solve ch tol it).1 = true ∧
      (positionsOf ((solve ch tol it).2)).headI =
        (forwardReach (positionsOf ch) (distances (positionsOf ch))
          ch.target).headI) ∧
    ∀ (qs : List V3) (ds : List ℝ),
      (backwardReach qs ds).headI = qs.headI := by
  have h2' : ¬ ch.joints.length < 2 := by omega
  have hlen : (positionsOf ch).length = (distances (positionsOf ch)).length + 1 := by
    rw [distances_length, positionsOf_length]
    omega
  rw [solve_reachable_resolved h2' (not_lt.mpr hr) htol hit]
  refine ⟨⟨rfl, ?_⟩, backwardReach_headI⟩
  rw [positionsOf_setPositions
    ((forwardReach_length _ _ _ hlen).trans (positionsOf_length ch))]

theorem C1_root_is_forward_pass_root_witness :
    (2 ≤ (chain3 ⟨0, 1.5, 0⟩).joints.length ∧
      (positionsOf (chain3 ⟨0, 1.5, 0⟩)).headI.distanceTo
          (chain3 ⟨0, 1.5, 0⟩).target
        ≤ (distances (positionsOf (chain3 ⟨0, 1.5, 0⟩))).sum ∧
      (0 : ℝ) < 0.01 ∧ 1 ≤ 10) ∧
    (((solve (chain3 ⟨0, 1.5, 0⟩) 0.01 10).1 = true ∧
      (positionsOf ((solve (chain3 ⟨0, 1.5, 0⟩) 0.01 10).2)).headI =
        (forwardReach (positionsOf (chain3 ⟨0, 1.5, 0⟩))
          (distances (positionsOf (chain3 ⟨0, 1.5, 0⟩)))
          (chain3 ⟨0, 1.5, 0⟩).target).headI) ∧
    ∀ (qs : List V3) (ds : List ℝ),
      (backwardReach qs ds).headI = qs.headI) :=
  ⟨⟨by simp [chain3, testJoint], not_lt.mp chain3_reachable, by norm_num, by norm_num⟩,
    C1_root_is_forward_pass_root (chain3 ⟨0, 1.5, 0⟩) 0.01 10
      (by simp [chain3, testJoint]) (not_lt.mp chain3_reachable)
      (by norm_num) (by norm_num)⟩

/-- **C5**: on the 3-joint chain at (0,0,0),(0,1,0),(0,2,0) with target
(0,1.5,0), `solve()` with tolerance 0.001 and 50 iterations returns `true`
and leaves the effector within 0.001 of the target (in this real-number
model, exactly on it). -/
theorem C5_reachable_target_converges :
    (solve (chain3 ⟨0, 1.5, 0⟩) 0.001 50).1 = true ∧
    (effectorPos ((solve (chain3 ⟨0, 1.5, 0⟩) 0.001 50).2)).distanceTo
      (chain3 ⟨0, 1.5, 0⟩).target < 0.001 := by
  rw [solve_chain3_resolved 0.001 50 (by norm_num) (by norm_num)]
  refine ⟨rfl, ?_⟩
  rw [effectorPos_setPositions (by simp [chain3, testJoint])]
  rw [show lastPos [(⟨0, -0.5, 0⟩ : V3), ⟨0, 0.5, 0⟩, ⟨0, 1.5, 0⟩]
    = (⟨0, 1.5, 0⟩ : V3) from rfl]
  have ht : (chain3 ⟨0, 1.5, 0⟩).target = ⟨0, 1.5, 0⟩ := rfl
  rw [ht, V3.distanceTo_self]
  norm_num

/-- **C10**: the degenerate directions of `solve()` are harmless: the
zero vector normalizes to the zero vector (the `length() || 1` guard of
`THREE.Vector3.normalize` — no NaN is produced), a placement step whose
joint coincides with its anchor leaves the joint exactly at the anchor's
position, and `solve` always returns a chain with the same number of
joints (it is total on every input, degenerate or not). -/
theorem C10_degenerate_directions_harmless :
    (⟨0, 0, 0⟩ : V3).normalize = ⟨0, 0, 0⟩ ∧
    (∀ (a : V3) (d : ℝ), place a a d = a) ∧
    (∀ (ch : IKChain) (tol : ℝ) (it : Nat),
      ((solve ch tol it).2).joints.length = ch.joints.length) :=
  ⟨V3.normalize_zero, place_self, solve_joints_length⟩

theorem chain2deg_positions : positionsOf chain2deg = [⟨0, 0, 0⟩, ⟨0, 1, 0⟩] := rfl

theorem chain2deg_distances : distances (positionsOf chain2deg) = [1] := by
  rw [chain2deg_positions]
  show V3.distanceTo ⟨0, 0, 0⟩ ⟨0, 1, 0⟩ :: distances [⟨0, 1, 0⟩] = [1]
  rw [distY]
  norm_num
  rfl

theorem chain2deg_reachable :
    ¬ (distances (positionsOf chain2deg)).sum
      < (positionsOf chain2deg).headI.distanceTo chain2deg.target := by
  rw [chain2deg_distances]
  show ¬ (1 : ℝ) + 0 < V3.distanceTo ⟨0, 0, 0⟩ ⟨0, 0, 0⟩
  rw [V3.distanceTo_self]
  norm_num

theorem forwardReach_chain2deg :
    forwardReach [⟨0, 0, 0⟩, ⟨0, 1, 0⟩] [1] ⟨0, 0, 0⟩ =
      [⟨0, 0, 0⟩, ⟨0, 0, 0⟩] := by
  have e1 : forwardReach [⟨0, 1, 0⟩] ([] : List ℝ) ⟨0, 0, 0⟩ =
      [(⟨0, 0, 0⟩ : V3)] := by
    rw [forwardReach]
  rw [forwardReach, e1]
  show place ⟨0, 0, 0⟩ ⟨0, 0, 0⟩ 1 :: [(⟨0, 0, 0⟩ : V3)] = _
  rw [place_self]

theorem solve_chain2deg_resolved (tol : ℝ) (it : Nat) (htol : 0 < tol)
    (hit : 1 ≤ it) :
    solve chain2deg tol it =
      (true, setPositions chain2deg [⟨0, 0, 0⟩, ⟨0, 0, 0⟩]) := by
  rw [solve_reachable_resolved (by simp [chain2deg, testJoint])
      chain2deg_reachable htol hit,
    chain2deg_positions, show distances [(⟨0, 0, 0⟩ : V3), ⟨0, 1, 0⟩] = [1] from
      chain2deg_positions ▸ chain2deg_distances]
  have ht : chain2deg.target = ⟨0, 0, 0⟩ := rfl
  rw [ht, forwardReach_chain2deg]

/-- **C2 counterexample**: the 2-joint chain at (0,0,0),(0,1,0) has distinct
consecutive joint positions and measured segment length 1; aiming it at the
reachable target (0,0,0) (the root itself) makes the forward pass compute a
zero direction (`normalize` of the zero vector), so `solve()` returns
`true` with both joints at the origin: the final consecutive distance is 0,
not the measured 1 — far beyond any floating-point tolerance. -/
theorem C2_segment_collapse_counterexample :
    (positionsOf chain2deg).getD 0 default
      ≠ (positionsOf chain2deg).getD 1 default ∧
    distances (positionsOf chain2deg) = [1] ∧
    (solve chain2deg 0.01 10).1 = true ∧
    ((positionsOf ((solve chain2deg 0.01 10).2)).getD 0 default).distanceTo
      ((positionsOf ((solve chain2deg 0.01 10).2)).getD 1 default) = 0 := by
  have hsolve := solve_chain2deg_resolved 0.01 10 (by norm_num) (by norm_num)
  have hpos : positionsOf ((solve chain2deg 0.01 10).2)
      = [⟨0, 0, 0⟩, ⟨0, 0, 0⟩] := by
    rw [hsolve]
    exact positionsOf_setPositions (by simp [chain2deg, testJoint])
  refine ⟨?_, chain2deg_distances, by rw [hsolve], ?_⟩
  · rw [chain2deg_positions]
    intro h
    have := (V3.ext_iff.mp h).2.1
    norm_num at this
  · rw [hpos]
    show (V3.distanceTo ⟨0, 0, 0⟩ ⟨0, 0, 0⟩) = 0
    exact V3.distanceTo_self _

/-- **C2 amended**: after `solve()` returns on a chain with at least 2
joints, every pair of consecutive joints is either exactly at its pre-solve
measured segment distance `Lᵢ`, or exactly coincident (distance 0) — the
latter only arises through the degenerate zero-direction case of
`normalize`; with no degeneracy the measured lengths are preserved
exactly. -/
theorem C2_segment_length_or_collapse (ch : IKChain) (tol : ℝ) (it : Nat)
    (h2 : 2 ≤ ch.joints.length) (i : Nat) (hi : i + 1 < ch.joints.length) :
    ((positionsOf ((solve ch tol it).2)).getD i default).distanceTo
        ((positionsOf ((solve ch tol it).2)).getD (i + 1) default)
      = (distances (positionsOf ch)).getD i 0 ∨
    (positionsOf ((solve ch tol it).2)).getD i default
      = (positionsOf ((solve ch tol it).2)).getD (i + 1) default := by
  have h2' : ¬ ch.joints.length < 2 := by omega
  have hlen : (positionsOf ch).length = (distances (positionsOf ch)).length + 1 := by
    rw [distances_length, positionsOf_length]
    omega
  have hnn := distances_nonneg (positionsOf ch)
  by_cases hu : (distances (positionsOf ch)).sum
      < (positionsOf ch).headI.distanceTo ch.target
  · rw [solve_unreachable h2' hu]
    have hwlen : ((positionsOf ch).headI ::
        straightWalk (positionsOf ch).headI
          ((ch.target.sub (positionsOf ch).headI).normalize)
          (distances (positionsOf ch))).length = ch.joints.length := by
      simp only [List.length_cons, straightWalk_length, distances_length,
        positionsOf_length]
      omega
    rw [positionsOf_setPositions hwlen]
    have hdist0 : (positionsOf ch).headI.distanceTo ch.target > 0 := by
      have hsum : 0 ≤ (distances (positionsOf ch)).sum :=
        List.sum_nonneg hnn
      linarith
    have hdirlen : ((ch.target.sub (positionsOf ch).headI).normalize).length = 1 := by
      apply V3.length_normalize
      intro hzero
      have : ch.target.distanceTo (positionsOf ch).headI = 0 := hzero
      rw [V3.distanceTo_comm] at this
      linarith
    have hlinked : LinkedAll ((positionsOf ch).headI ::
        straightWalk (positionsOf ch).headI
          ((ch.target.sub (positionsOf ch).headI).normalize)
          (distances (positionsOf ch))) (distances (positionsOf ch)) :=
      straightWalk_linked hdirlen (distances (positionsOf ch)) _ hnn
    exact linkedAll_getD _ _ hlinked i (by rw [hwlen]; exact hi)
  · rw [solve_reachable h2' hu]
    obtain ⟨m, hm⟩ := solveLoop_snd_iterate (distances (positionsOf ch))
      ch.target tol it (positionsOf ch)
    have hqlen : ((iterStep (distances (positionsOf ch)) ch.target)^[m]
        (positionsOf ch)).length = ch.joints.length := by
      rw [iterate_iterStep_length hlen hnn m, positionsOf_length]
    show ((positionsOf (setPositions ch _)).getD i default).distanceTo _
        = _ ∨ _
    rw [hm, positionsOf_setPositions hqlen]
    exact linkedAll_getD _ _
      (iterate_iterStep_linked hlen hnn (linkedAll_distances _) m) i
      (by rw [hqlen]; exact hi)

theorem C2_segment_length_or_collapse_witness :
    (2 ≤ (chain3 ⟨0, 1.5, 0⟩).joints.length ∧
      0 + 1 < (chain3 ⟨0, 1.5, 0⟩).joints.length) ∧
    (((positionsOf ((solve (chain3 ⟨0, 1.5, 0⟩) 0.01 10).2)).getD 0
          default).distanceTo
        ((positionsOf ((solve (chain3 ⟨0, 1.5, 0⟩) 0.01 10).2)).getD (0 + 1)
          default)
      = (distances (positionsOf (chain3 ⟨0, 1.5, 0⟩))).getD 0 0 ∨
    (positionsOf ((solve (chain3 ⟨0, 1.5, 0⟩) 0.01 10).2)).getD 0 default
      = (positionsOf ((solve (chain3 ⟨0, 1.5, 0⟩) 0.01 10).2)).getD (0 + 1)
        default) :=
  ⟨⟨by simp [chain3, testJoint], by simp [chain3, testJoint]⟩,
    C2_segment_length_or_collapse (chain3 ⟨0, 1.5, 0⟩) 0.01 10
      (by simp [chain3, testJoint]) 0 (by simp [chain3, testJoint])⟩

/-- **C4**: in the reachable case, `solve()` runs at most `maxIterations`
iterations of the two passes; it returns `true` exactly when some iteration
brings the post-pass effector strictly within tolerance of the target,
stopping at the first such iteration and leaving the positions of that
iteration; and when the budget is exhausted without convergence it returns
`false` with the positions of the last iteration — no rollback to the
pre-solve positions. -/
theorem C4_iteration_budget (ch : IKChain) (tol : ℝ) (it : Nat)
    (h2 : 2 ≤ ch.joints.length)
    (hr : (positionsOf ch).headI.distanceTo ch.target
      ≤ (distances (positionsOf ch)).sum) :
    ((solve ch tol it).1 = true →
      ∃ k, k < it ∧
        (∀ j, j < k →
          ¬ (lastPos ((iterStep (distances (positionsOf ch)) ch.target)^[j + 1]
            (positionsOf ch))).distanceTo ch.target < tol) ∧
        (lastPos ((iterStep (distances (positionsOf ch)) ch.target)^[k + 1]
          (positionsOf ch))).distanceTo ch.target < tol ∧
        positionsOf ((solve ch tol it).2) =
          (iterStep (distances (positionsOf ch)) ch.target)^[k + 1]
            (positionsOf ch)) ∧
    ((solve ch tol it).1 = false →
      (∀ k, k < it →
        ¬ (lastPos ((iterStep (distances (positionsOf ch)) ch.target)^[k + 1]
          (positionsOf ch))).distanceTo ch.target < tol) ∧
      positionsOf ((solve ch tol it).2) =
        (iterStep (distances (positionsOf ch)) ch.target)^[it]
          (positionsOf ch)) := by
  have h2' : ¬ ch.joints.length < 2 := by omega
  have hlen : (positionsOf ch).length = (distances (positionsOf ch)).length + 1 := by
    rw [distances_length, positionsOf_length]
    omega
  have hnn := distances_nonneg (positionsOf ch)
  have hspec := solveLoop_spec (distances (positionsOf ch)) ch.target tol it
    (positionsOf ch)
  rw [solve_reachable h2' (not_lt.mpr hr)]
  constructor
  · intro h
    obtain ⟨k, hk, hbefore, hconv, hstate⟩ := hspec.1 h
    refine ⟨k, hk, hbefore, hconv, ?_⟩
    show positionsOf (setPositions ch _) = _
    rw [hstate, positionsOf_setPositions (by
      rw [iterate_iterStep_length hlen hnn (k + 1), positionsOf_length])]
  · intro h
    obtain ⟨hnone, hstate⟩ := hspec.2 h
    refine ⟨hnone, ?_⟩
    show positionsOf (setPositions ch _) = _
    rw [hstate, positionsOf_setPositions (by
      rw [iterate_iterStep_length hlen hnn it, positionsOf_length])]

theorem C4_iteration_budget_witness :
    (2 ≤ (chain3 ⟨0, 1.5, 0⟩).joints.length ∧
      (positionsOf (chain3 ⟨0, 1.5, 0⟩)).headI.distanceTo
          (chain3 ⟨0, 1.5, 0⟩).target
        ≤ (distances (positionsOf (chain3 ⟨0, 1.5, 0⟩))).sum) ∧
    (((solve (chain3 ⟨0, 1.5, 0⟩) 0.01 10).1 = true →
      ∃ k, k < 10 ∧
        (∀ j, j < k →
          ¬ (lastPos ((iterStep (distances (positionsOf (chain3 ⟨0, 1.5, 0⟩)))
              (chain3 ⟨0, 1.5, 0⟩).target)^[j + 1]
            (positionsOf (chain3 ⟨0, 1.5, 0⟩)))).distanceTo
              (chain3 ⟨0, 1.5, 0⟩).target < 0.01) ∧
        (lastPos ((iterStep (distances (positionsOf (chain3 ⟨0, 1.5, 0⟩)))
            (chain3 ⟨0, 1.5, 0⟩).target)^[k + 1]
          (positionsOf (chain3 ⟨0, 1.5, 0⟩)))).distanceTo
            (chain3 ⟨0, 1.5, 0⟩).target < 0.01 ∧
        positionsOf ((solve (chain3 ⟨0, 1.5, 0⟩) 0.01 10).2) =
          (iterStep (distances (positionsOf (chain3 ⟨0, 1.5, 0⟩)))
            (chain3 ⟨0, 1.5, 0⟩).target)^[k + 1]
              (positionsOf (chain3 ⟨0, 1.5, 0⟩))) ∧
    ((solve (chain3 ⟨0, 1.5, 0⟩) 0.01 10).1 = false →
      (∀ k, k < 10 →
        ¬ (lastPos ((iterStep (distances (positionsOf (chain3 ⟨0, 1.5, 0⟩)))
            (chain3 ⟨0, 1.5, 0⟩).target)^[k + 1]
          (positionsOf (chain3 ⟨0, 1.5, 0⟩)))).distanceTo
            (chain3 ⟨0, 1.5, 0⟩).target < 0.01) ∧
      positionsOf ((solve (chain3 ⟨0, 1.5, 0⟩) 0.01 10).2) =
        (iterStep (distances (positionsOf (chain3 ⟨0, 1.5, 0⟩)))
          (chain3 ⟨0, 1.5, 0⟩).target)^[10]
            (positionsOf (chain3 ⟨0, 1.5, 0⟩)))) :=
  ⟨⟨by simp [chain3, testJoint], not_lt.mp chain3_reachable⟩,
    C4_iteration_budget (chain3 ⟨0, 1.5, 0⟩) 0.01 10
      (by simp [chain3, testJoint]) (not_lt.mp chain3_reachable)⟩

/-- **C9**: once a `solve()` call has returned `true`, a second `solve()`
call on the resulting chain also returns `true`, and it moves the effector
by strictly less than the tolerance (in this real-number model, by exactly
0: a converged chain has its effector pinned onto the target, the second
call re-measures, finds the target within reach by the polyline triangle
inequality, and its forward pass re-pins the effector onto the same
target). -/
theorem C9_resolve_after_convergence (ch : IKChain) (tol : ℝ) (it : Nat)
    (h1 : (solve ch tol it).1 = true) :
    (solve ((solve ch tol it).2) tol it).1 = true ∧
    (effectorPos ((solve ((solve ch tol it).2) tol it).2)).distanceTo
      (effectorPos ((solve ch tol it).2)) < tol := by
  by_cases h2 : ch.joints.length < 2
  · rw [solve_lt_two h2] at h1
    exact absurd h1 (by simp)
  by_cases hu : (distances (positionsOf ch)).sum
      < (positionsOf ch).headI.distanceTo ch.target
  · rw [solve_unreachable h2 hu] at h1
    exact absurd h1 (by simp)
  have hlen : (positionsOf ch).length = (distances (positionsOf ch)).length + 1 := by
    rw [distances_length, positionsOf_length]
    omega
  have hnn := distances_nonneg (positionsOf ch)
  rw [solve_reachable h2 hu] at h1
  obtain ⟨k, hk, _, hconv, hstate⟩ :=
    (solveLoop_spec (distances (positionsOf ch)) ch.target tol it
      (positionsOf ch)).1 h1
  have hlast : lastPos ((iterStep (distances (positionsOf ch))
      ch.target)^[k + 1] (positionsOf ch)) = ch.target :=
    iterate_iterStep_last hlen hnn k
  have htol : 0 < tol := by
    rw [hlast, V3.distanceTo_self] at hconv
    exact hconv
  have hit : 1 ≤ it := by omega
  have hqlen : ((iterStep (distances (positionsOf ch)) ch.target)^[k + 1]
      (positionsOf ch)).length = ch.joints.length := by
    rw [iterate_iterStep_length hlen hnn (k + 1), positionsOf_length]
  have hres : (solve ch tol it).2 = setPositions ch
      ((iterStep (distances (positionsOf ch)) ch.target)^[k + 1]
        (positionsOf ch)) := by
    rw [solve_reachable h2 hu]
    show setPositions ch _ = _
    rw [hstate]
  have hpos' : positionsOf ((solve ch tol it).2) =
      (iterStep (distances (positionsOf ch)) ch.target)^[k + 1]
        (positionsOf ch) := by
    rw [hres, positionsOf_setPositions hqlen]
  have heff1 : effectorPos ((solve ch tol it).2) = ch.target := by
    unfold effectorPos
    rw [hpos', hlast]
  have hn' : ((solve ch tol it).2).joints.length = ch.joints.length :=
    solve_joints_length ch tol it
  have h2' : ¬ ((solve ch tol it).2).joints.length < 2 := by
    rw [hn']
    exact h2
  have ht' : ((solve ch tol it).2).target = ch.target := by
    rw [hres, setPositions_target]
  have hlen' : (positionsOf ((solve ch tol it).2)).length = ch.joints.length := by
    rw [positionsOf_length, hn']
  have hreach' : ¬ (distances (positionsOf ((solve ch tol it).2))).sum
      < (positionsOf ((solve ch tol it).2)).headI.distanceTo
        ((solve ch tol it).2).target := by
    rw [not_lt]
    obtain ⟨q, rest, hqr⟩ : ∃ q rest,
        positionsOf ((solve ch tol it).2) = q :: rest := by
      cases hcase : positionsOf ((solve ch tol it).2) with
      | nil =>
        rw [hcase] at hlen'
        simp at hlen'
        omega
      | cons q rest => exact ⟨q, rest, rfl⟩
    have hl : lastPos (q :: rest) = ((solve ch tol it).2).target := by
      rw [← hqr]
      show effectorPos ((solve ch tol it).2) = _
      rw [heff1, ht']
    rw [hqr]
    calc (q :: rest).headI.distanceTo ((solve ch tol it).2).target
        = q.distanceTo (lastPos (q :: rest)) := by rw [hl]; rfl
      _ ≤ (distances (q :: rest)).sum := dist_head_last_le_sum q rest
  have hlen2 : (positionsOf ((solve ch tol it).2)).length
      = (distances (positionsOf ((solve ch tol it).2))).length + 1 := by
    rw [distances_length, hlen']
    omega
  rw [solve_reachable_resolved h2' hreach' htol hit]
  refine ⟨rfl, ?_⟩
  show (effectorPos (setPositions ((solve ch tol it).2) _)).distanceTo _ < tol
  rw [effectorPos_setPositions
    ((forwardReach_length _ _ _ hlen2).trans
      (by rw [positionsOf_length]))]
  rw [forwardReach_last _ _ _ hlen2, ht', heff1, V3.distanceTo_self]
  exact htol

theorem C9_resolve_after_convergence_witness :
    (solve (chain3 ⟨0, 1.5, 0⟩) 0.01 10).1 = true ∧
    ((solve ((solve (chain3 ⟨0, 1.5, 0⟩) 0.01 10).2) 0.01 10).1 = true ∧
      (effectorPos ((solve ((solve (chain3 ⟨0, 1.5, 0⟩) 0.01 10).2) 0.01 10).2)).distanceTo
        (effectorPos ((solve (chain3 ⟨0, 1.5, 0⟩) 0.01 10).2)) < 0.01) :=
  ⟨by rw [solve_chain3_resolved 0.01 10 (by norm_num) (by norm_num)],
    C9_resolve_after_convergence (chain3 ⟨0, 1.5, 0⟩) 0.01 10
      (by rw [solve_chain3_resolved 0.01 10 (by norm_num) (by norm_num)])⟩

namespace Quat

/-- Squared norm of a quaternion. -/
noncomputable def normSq (q : Quat) : ℝ := q.x ^ 2 + q.y ^ 2 + q.z ^ 2 + q.w ^ 2

/-- `THREE.Quaternion.length`. -/
noncomputable def length (q : Quat) : ℝ := Real.sqrt q.normSq

/-- `THREE.Quaternion.normalize`: a zero-length quaternion becomes the
identity, otherwise every component is divided by the length. -/
noncomputable def normalize (q : Quat) : Quat :=
  if q.length = 0 then ⟨0, 0, 0, 1⟩
  else ⟨q.x / q.length, q.y / q.length, q.z / q.length, q.w / q.length⟩

/-- `THREE.Quaternion.conjugate`. -/
def conjugate (q : Quat) : Quat := ⟨-q.x, -q.y, -q.z, q.w⟩

end Quat

/-- `THREE.Quaternion.multiplyQuaternions` (Hamilton product in three.js
component order). -/
noncomputable def quatMul (a b : Quat) : Quat :=
  ⟨a.x * b.w + a.w * b.x + a.y * b.z - a.z * b.y,
   a.y * b.w + a.w * b.y + a.z * b.x - a.x * b.z,
   a.z * b.w + a.w * b.z + a.x * b.y - a.y * b.x,
   a.w * b.w - a.x * b.x - a.y * b.y - a.z * b.z⟩

/-- A vector regarded as a pure quaternion. -/
def vecQuat (v : V3) : Quat := ⟨v.x, v.y, v.z, 0⟩

/-- The rotation action of a quaternion on a vector: the vector part of
`q * v * q⁻¹` (for unit `q`, conjugate = inverse); this is what "the
quaternion maps vector `u` onto vector `w`" means. -/
noncomputable def rotateByQuat (q : Quat) (v : V3) : V3 :=
  ⟨(quatMul (quatMul q (vecQuat v)) q.conjugate).x,
   (quatMul (quatMul q (vecQuat v)) q.conjugate).y,
   (quatMul (quatMul q (vecQuat v)) q.conjugate).z⟩

/-- JavaScript's `Number.EPSILON` (2⁻⁵²), used by
`Quaternion.setFromUnitVectors` to detect the antiparallel case. -/
noncomputable def numberEpsilon : ℝ := 1 / 2 ^ 52

/-- `THREE.Quaternion.setFromUnitVectors`, translated clause by clause:
`r = vFrom·vTo + 1`; when `r < Number.EPSILON` the vectors are treated as
antiparallel and an arbitrary perpendicular axis with `w = 0` is chosen;
otherwise the quaternion is `(vFrom × vTo, r)`; the result is
normalized. -/
noncomputable def setFromUnitVectors (vFrom vTo : V3) : Quat :=
  if vFrom.dot vTo + 1 < numberEpsilon then
    (if |vFrom.x| > |vFrom.z| then
      Quat.normalize ⟨-vFrom.y, vFrom.x, 0, 0⟩
    else
      Quat.normalize ⟨0, -vFrom.z, vFrom.y, 0⟩)
  else
    Quat.normalize ⟨vFrom.y * vTo.z - vFrom.z * vTo.y,
      vFrom.z * vTo.x - vFrom.x * vTo.z,
      vFrom.x * vTo.y - vFrom.y * vTo.x,
      vFrom.dot vTo + 1⟩

/-- The fixed rest direction used by `updateRotations()`
(`defaultDirection = new THREE.Vector3(0, 1, 0)`). -/
def upAxis : V3 := ⟨0, 1, 0⟩

/-- The loop body of `FABRIKSolver.updateRotations()`: every joint except
the last gets its rotation set from the unit-vector pair (up-axis, direction
to the next joint); positions are never written, so each step reads the
original positions. -/
noncomputable def updateJoints : List Joint → List Joint
  | j :: next :: rest =>
    { j with
      rotation := setFromUnitVectors upAxis ((next.position.sub j.position).normalize) }
      :: updateJoints (next :: rest)
  | l => l

/-- `FABRIKSolver.updateRotations()`. -/
noncomputable def updateRotations (ch : IKChain) : IKChain :=
  { ch with joints := updateJoints ch.joints }

theorem updateJoints_getD_lt : ∀ (js : List Joint) (i : Nat),
    i + 1 < js.length →
    (updateJoints js).getD i default =
      { js.getD i default with
        rotation :=
          setFromUnitVectors upAxis
            (((js.getD (i + 1) default).position.sub (js.getD i default).position).normalize) }
  | [], i, hi => absurd hi (by simp)
  | [_], i, hi => absurd hi (by simp)
  | j :: next :: rest, 0, _ => by
    rw [updateJoints]
    rfl
  | j :: next :: rest, i + 1, hi => by
    rw [updateJoints]
    have := updateJoints_getD_lt (next :: rest) i (by simpa using hi)
    simpa using this

theorem updateJoints_getD_ge : ∀ (js : List Joint) (i : Nat),
    js.length ≤ i + 1 →
    (updateJoints js).getD i default = js.getD i default
  | [], _, _ => by rw [updateJoints] <;> simp
  | [_], _, _ => by rw [updateJoints] <;> simp
  | j :: next :: rest, 0, hi => by simp at hi
  | j :: next :: rest, i + 1, hi => by
    rw [updateJoints]
    have := updateJoints_getD_ge (next :: rest) i (by simpa using hi)
    simpa using this

theorem updateJoints_position : ∀ (js : List Joint) (i : Nat),
    ((updateJoints js).getD i default).position =
      (js.getD i default).position
  | [], _ => by rw [updateJoints] <;> simp
  | [_], _ => by rw [updateJoints] <;> simp
  | j :: next :: rest, 0 => by
    rw [updateJoints]
    rfl
  | j :: next :: rest, i + 1 => by
    rw [updateJoints]
    have := updateJoints_position (next :: rest) i
    simpa using this

theorem rotateByQuat_div (q : Quat) (s : ℝ) (hs : s ≠ 0) (v : V3) :
    rotateByQuat ⟨q.x / s, q.y / s, q.z / s, q.w / s⟩ v =
      (rotateByQuat q v).smul (1 / s ^ 2) := by
  unfold rotateByQuat quatMul vecQuat Quat.conjugate
  rw [V3.ext_iff]
  unfold V3.smul
  refine ⟨?_, ?_, ?_⟩ <;> (simp only; field_simp; ring)

/-- The rotation computed by the generic branch of `setFromUnitVectors`
for `vFrom = (0,1,0)` and a unit `vTo = c`, before normalization: rotating
the up axis by the unnormalized quaternion `(c.z, 0, -c.x, 1 + c.y)` scales
`c` by the quaternion's squared norm `2(1 + c.y)`. -/
theorem rotateByQuat_cross_up (c : V3) :
    rotateByQuat ⟨c.z, 0, -c.x, 1 + c.y⟩ upAxis =
      ⟨2 * c.x * (1 + c.y),
        (1 + c.y) ^ 2 - c.x ^ 2 - c.z ^ 2,
        2 * c.z * (1 + c.y)⟩ := by
  unfold rotateByQuat quatMul vecQuat Quat.conjugate upAxis
  rw [V3.ext_iff]
  refine ⟨?_, ?_, ?_⟩ <;> (simp only; ring)

/-- For a unit vector `c` with `1 + c.y > 0`, the (normalized) quaternion
built by the generic branch of `setFromUnitVectors (0,1,0) c` is a unit
quaternion mapping the up axis exactly onto `c`. -/
theorem rotate_cross_up_unit {c : V3}
    (hunit : c.x ^ 2 + c.y ^ 2 + c.z ^ 2 = 1) (hpos : 0 < 1 + c.y) :
    rotateByQuat (Quat.normalize ⟨c.z, 0, -c.x, 1 + c.y⟩) upAxis = c ∧
    (Quat.normalize ⟨c.z, 0, -c.x, 1 + c.y⟩).normSq = 1 := by
  have hN : (⟨c.z, 0, -c.x, 1 + c.y⟩ : Quat).normSq = 2 * (1 + c.y) := by
    show c.z ^ 2 + 0 ^ 2 + (-c.x) ^ 2 + (1 + c.y) ^ 2 = 2 * (1 + c.y)
    linear_combination hunit
  have hNpos : (0 : ℝ) < 2 * (1 + c.y) := by linarith
  have hlen : (⟨c.z, 0, -c.x, 1 + c.y⟩ : Quat).length
      = Real.sqrt (2 * (1 + c.y)) := by
    unfold Quat.length
    rw [hN]
  have hlpos : 0 < Real.sqrt (2 * (1 + c.y)) := Real.sqrt_pos.mpr hNpos
  have hlsq : Real.sqrt (2 * (1 + c.y)) ^ 2 = 2 * (1 + c.y) :=
    Real.sq_sqrt hNpos.le
  have hq : Quat.normalize ⟨c.z, 0, -c.x, 1 + c.y⟩ =
      ⟨c.z / Real.sqrt (2 * (1 + c.y)), 0 / Real.sqrt (2 * (1 + c.y)),
        -c.x / Real.sqrt (2 * (1 + c.y)), (1 + c.y) / Real.sqrt (2 * (1 + c.y))⟩ := by
    unfold Quat.normalize
    rw [hlen, if_neg hlpos.ne']
  constructor
  · rw [hq]
    have hdiv := rotateByQuat_div ⟨c.z, 0, -c.x, 1 + c.y⟩
      (Real.sqrt (2 * (1 + c.y))) hlpos.ne' upAxis
    simp only at hdiv
    rw [hdiv, rotateByQuat_cross_up c, hlsq]
    unfold V3.smul
    rw [V3.ext_iff]
    refine ⟨?_, ?_, ?_⟩
    · show 2 * c.x * (1 + c.y) * (1 / (2 * (1 + c.y))) = c.x
      field_simp
      ring
    · show ((1 + c.y) ^ 2 - c.x ^ 2 - c.z ^ 2) * (1 / (2 * (1 + c.y))) = c.y
      rw [mul_one_div, div_eq_iff hNpos.ne']
      linear_combination (-1 : ℝ) * hunit
    · show 2 * c.z * (1 + c.y) * (1 / (2 * (1 + c.y))) = c.z
      field_simp
      ring
  · rw [hq]
    show (c.z / Real.sqrt (2 * (1 + c.y))) ^ 2 + (0 / Real.sqrt (2 * (1 + c.y))) ^ 2
        + (-c.x / Real.sqrt (2 * (1 + c.y))) ^ 2
        + ((1 + c.y) / Real.sqrt (2 * (1 + c.y))) ^ 2 = 1
    have hnum : c.z ^ 2 + 0 ^ 2 + (-c.x) ^ 2 + (1 + c.y) ^ 2 = 2 * (1 + c.y) := by
      linear_combination hunit
    rw [div_pow, div_pow, div_pow, div_pow, div_add_div_same, div_add_div_same,
      div_add_div_same, hnum, hlsq]
    exact div_self hNpos.ne'

theorem V3.sub_eq_zero_iff {a b : V3} : a.sub b = ⟨0, 0, 0⟩ ↔ a = b := by
  cases a; cases b
  simp [V3.sub, V3.mk.injEq, sub_eq_zero]

theorem numberEpsilon_pos : 0 < numberEpsilon := by
  unfold numberEpsilon
  norm_num

/-- The antiparallel branch of `setFromUnitVectors` for the up axis picks
the rotation of angle π about the z axis. -/
theorem setFromUnitVectors_up_down :
    setFromUnitVectors upAxis ⟨0, -1, 0⟩ = ⟨0, 0, 1, 0⟩ := by
  have h1 : upAxis.dot ⟨0, -1, 0⟩ + 1 < numberEpsilon := by
    show (0 * 0 + 1 * (-1) + 0 * 0 : ℝ) + 1 < numberEpsilon
    have := numberEpsilon_pos
    linarith
  have h2 : ¬ |upAxis.x| > |upAxis.z| := by
    show ¬ |(0 : ℝ)| > |(0 : ℝ)|
    simp
  unfold setFromUnitVectors
  rw [if_pos h1, if_neg h2]
  show Quat.normalize ⟨0, -(0 : ℝ), 1, 0⟩ = ⟨0, 0, 1, 0⟩
  unfold Quat.normalize Quat.length Quat.normSq
  have hlen : Real.sqrt ((0 : ℝ) ^ 2 + (-0) ^ 2 + 1 ^ 2 + 0 ^ 2) = 1 := by
    norm_num
  simp only
  rw [hlen, if_neg one_ne_zero]
  norm_num

theorem rotate_up_down : rotateByQuat ⟨0, 0, 1, 0⟩ upAxis = ⟨0, -1, 0⟩ := by
  unfold rotateByQuat quatMul vecQuat Quat.conjugate upAxis
  rw [V3.ext_iff]
  refine ⟨by simp only; norm_num, by simp only; norm_num, by simp only; norm_num⟩

theorem normSq_up_down : (⟨0, 0, 1, 0⟩ : Quat).normSq = 1 := by
  show (0 : ℝ) ^ 2 + 0 ^ 2 + 1 ^ 2 + 0 ^ 2 = 1
  norm_num

/-- **C8 amended**: `updateRotations()` leaves every joint position and the
effector's rotation unchanged, and for each joint `i` before the effector
whose direction to joint `i+1` is nonzero, the stored rotation is a unit
quaternion mapping the up axis `(0,1,0)` exactly onto the normalized
direction — provided the direction does not fall in the antiparallel
epsilon sliver of `setFromUnitVectors` (either `1 + dirᵧ ≥ Number.EPSILON`,
or the direction is exactly `(0,-1,0)`). -/
theorem C8_update_rotations_maps_up (ch : IKChain) (i : Nat)
    (hi : i + 1 < ch.joints.length)
    (hne : (ch.joints.getD (i + 1) default).position
      ≠ (ch.joints.getD i default).position)
    (hcase : numberEpsilon ≤ (((ch.joints.getD (i + 1) default).position.sub
        (ch.joints.getD i default).position).normalize).y + 1 ∨
      ((ch.joints.getD (i + 1) default).position.sub
        (ch.joints.getD i default).position).normalize = ⟨0, -1, 0⟩) :
    (rotateByQuat (((updateRotations ch).joints.getD i default).rotation) upAxis
        = ((ch.joints.getD (i + 1) default).position.sub
          (ch.joints.getD i default).position).normalize ∧
      ((((updateRotations ch).joints.getD i default).rotation)).normSq = 1) ∧
    (∀ j : Nat, ((updateRotations ch).joints.getD j default).position
      = (ch.joints.getD j default).position) ∧
    ((updateRotations ch).joints.getD (ch.joints.length - 1) default).rotation
      = (ch.joints.getD (ch.joints.length - 1) default).rotation := by
  have hrot : ((updateRotations ch).joints.getD i default).rotation =
      setFromUnitVectors upAxis
        (((ch.joints.getD (i + 1) default).position.sub
          (ch.joints.getD i default).position).normalize) := by
    show ((updateJoints ch.joints).getD i default).rotation = _
    rw [updateJoints_getD_lt ch.joints i hi]
  have hsubne : (ch.joints.getD (i + 1) default).position.sub
      (ch.joints.getD i default).position ≠ ⟨0, 0, 0⟩ := by
    intro h
    exact hne (V3.sub_eq_zero_iff.mp h)
  have hlen0 : ((ch.joints.getD (i + 1) default).position.sub
      (ch.joints.getD i default).position).length ≠ 0 := by
    intro h
    exact hsubne (V3.length_eq_zero_iff.mp h)
  have hcunit : (((ch.joints.getD (i + 1) default).position.sub
      (ch.joints.getD i default).position).normalize).length = 1 :=
    V3.length_normalize hlen0
  have hcunit2 : (((ch.joints.getD (i + 1) default).position.sub
        (ch.joints.getD i default).position).normalize).x ^ 2 +
      (((ch.joints.getD (i + 1) default).position.sub
        (ch.joints.getD i default).position).normalize).y ^ 2 +
      (((ch.joints.getD (i + 1) default).position.sub
        (ch.joints.getD i default).position).normalize).z ^ 2 = 1 := by
    have := V3.sq_length (((ch.joints.getD (i + 1) default).position.sub
      (ch.joints.getD i default).position).normalize)
    rw [hcunit] at this
    linarith [this]
  refine ⟨?_, updateJoints_position ch.joints, ?_⟩
  · rw [hrot]
    rcases hcase with heps | hdown
    · have hdotc : upAxis.dot (((ch.joints.getD (i + 1) default).position.sub
          (ch.joints.getD i default).position).normalize) + 1 =
          (((ch.joints.getD (i + 1) default).position.sub
            (ch.joints.getD i default).position).normalize).y + 1 := by
        show (0 * _ + 1 * _ + 0 * _ : ℝ) + 1 = _ + 1
        ring
      have hnotlt : ¬ upAxis.dot (((ch.joints.getD (i + 1) default).position.sub
          (ch.joints.getD i default).position).normalize) + 1 < numberEpsilon := by
        rw [hdotc]
        exact not_lt.mpr heps
      have hset : setFromUnitVectors upAxis
          (((ch.joints.getD (i + 1) default).position.sub
            (ch.joints.getD i default).position).normalize) =
          Quat.normalize ⟨(((ch.joints.getD (i + 1) default).position.sub
              (ch.joints.getD i default).position).normalize).z, 0,
            -(((ch.joints.getD (i + 1) default).position.sub
              (ch.joints.getD i default).position).normalize).x,
            1 + (((ch.joints.getD (i + 1) default).position.sub
              (ch.joints.getD i default).position).normalize).y⟩ := by
        unfold setFromUnitVectors
        rw [if_neg hnotlt]
        congr 1
        rw [Quat.mk.injEq]
        show (1 * _ - 0 * _ = _) ∧ (0 * _ - 0 * _ = (0 : ℝ)) ∧
          (0 * _ - 1 * _ = _) ∧ ((0 * _ + 1 * _ + 0 * _ : ℝ) + 1 = _)
        refine ⟨by ring, by ring, by ring, by ring⟩
      have hpos : 0 < 1 + (((ch.joints.getD (i + 1) default).position.sub
          (ch.joints.getD i default).position).normalize).y := by
        have := numberEpsilon_pos
        linarith
      rw [hset]
      have := rotate_cross_up_unit hcunit2 hpos
      exact ⟨this.1, this.2⟩
    · rw [hdown, setFromUnitVectors_up_down]
      exact ⟨rotate_up_down, normSq_up_down⟩
  · by_cases hlast : ch.joints.length ≤ (ch.joints.length - 1) + 1
    · show ((updateJoints ch.joints).getD (ch.joints.length - 1) default).rotation = _
      rw [updateJoints_getD_ge ch.joints _ hlast]
    · omega

/-- A 2-joint chain whose joints coincide (degenerate direction for
`updateRotations`). -/
def chain2same : IKChain :=
  { name := "coincident",
    joints := [testJoint "a" ⟨0, 0, 0⟩, testJoint "b" ⟨0, 0, 0⟩],
    target := ⟨0, 0, 0⟩ }

theorem setFromUnitVectors_up_zero :
    setFromUnitVectors upAxis ⟨0, 0, 0⟩ = ⟨0, 0, 0, 1⟩ := by
  have hnotlt : ¬ upAxis.dot ⟨0, 0, 0⟩ + 1 < numberEpsilon := by
    show ¬ ((0 * 0 + 1 * 0 + 0 * 0 : ℝ) + 1 < numberEpsilon)
    unfold numberEpsilon
    norm_num
  unfold setFromUnitVectors
  rw [if_neg hnotlt]
  have hq : (⟨upAxis.y * (0 : ℝ) - upAxis.z * 0, upAxis.z * 0 - upAxis.x * 0,
      upAxis.x * 0 - upAxis.y * 0, upAxis.dot ⟨0, 0, 0⟩ + 1⟩ : Quat)
      = ⟨0, 0, 0, 1⟩ := by
    rw [Quat.mk.injEq]
    show (1 * 0 - 0 * 0 = (0 : ℝ)) ∧ (0 * 0 - 0 * 0 = (0 : ℝ)) ∧
      (0 * 0 - 1 * 0 = (0 : ℝ)) ∧ ((0 * 0 + 1 * 0 + 0 * 0 : ℝ) + 1 = 1)
    norm_num
  rw [hq]
  unfold Quat.normalize Quat.length Quat.normSq
  simp only
  rw [show Real.sqrt ((0 : ℝ) ^ 2 + 0 ^ 2 + 0 ^ 2 + 1 ^ 2) = 1 by norm_num,
    if_neg one_ne_zero]
  rw [Quat.mk.injEq]
  norm_num

theorem rotate_identity_up : rotateByQuat ⟨0, 0, 0, 1⟩ upAxis = ⟨0, 1, 0⟩ := by
  unfold rotateByQuat quatMul vecQuat Quat.conjugate upAxis
  rw [V3.ext_iff]
  refine ⟨by simp only; norm_num, by simp only; norm_num, by simp only; norm_num⟩

/-- **C8 counterexample**: on the chain whose two joints coincide at the
origin (index 0 is strictly before the effector), `updateRotations()`
stores the identity quaternion, which maps the up axis to `(0,1,0)` — not
onto the "normalized vector from joint 0 to joint 1", which is the zero
vector here: the claimed mapping property fails for degenerate
directions. -/
theorem C8_zero_direction_counterexample :
    0 + 1 < chain2same.joints.length ∧
    ((chain2same.joints.getD (0 + 1) default).position.sub
      (chain2same.joints.getD 0 default).position).normalize = ⟨0, 0, 0⟩ ∧
    rotateByQuat (((updateRotations chain2same).joints.getD 0 default).rotation)
      upAxis = ⟨0, 1, 0⟩ ∧
    ¬ rotateByQuat (((updateRotations chain2same).joints.getD 0 default).rotation)
        upAxis
      = ((chain2same.joints.getD (0 + 1) default).position.sub
        (chain2same.joints.getD 0 default).position).normalize := by
  have hdir : ((chain2same.joints.getD (0 + 1) default).position.sub
      (chain2same.joints.getD 0 default).position).normalize = ⟨0, 0, 0⟩ := by
    show ((⟨0, 0, 0⟩ : V3).sub ⟨0, 0, 0⟩).normalize = ⟨0, 0, 0⟩
    rw [show (⟨0, 0, 0⟩ : V3).sub ⟨0, 0, 0⟩ = ⟨0, 0, 0⟩ by simp [V3.sub],
      V3.normalize_zero]
  have hrot : ((updateRotations chain2same).joints.getD 0 default).rotation
      = ⟨0, 0, 0, 1⟩ := by
    show ((updateJoints chain2same.joints).getD 0 default).rotation = _
    rw [updateJoints_getD_lt chain2same.joints 0 (by simp [chain2same])]
    show setFromUnitVectors upAxis
      (((chain2same.joints.getD (0 + 1) default).position.sub
        (chain2same.joints.getD 0 default).position).normalize) = _
    rw [hdir, setFromUnitVectors_up_zero]
  refine ⟨by simp [chain2same], hdir, ?_, ?_⟩
  · rw [hrot, rotate_identity_up]
  · rw [hrot, rotate_identity_up, hdir]
    intro h
    have := (V3.ext_iff.mp h).2.1
    norm_num at this

theorem C8_update_rotations_maps_up_witness :
    (0 + 1 < (chain3 ⟨0, 1.5, 0⟩).joints.length ∧
      ((chain3 ⟨0, 1.5, 0⟩).joints.getD (0 + 1) default).position
        ≠ ((chain3 ⟨0, 1.5, 0⟩).joints.getD 0 default).position ∧
      (numberEpsilon ≤ ((((chain3 ⟨0, 1.5, 0⟩).joints.getD (0 + 1) default).position.sub
          ((chain3 ⟨0, 1.5, 0⟩).joints.getD 0 default).position).normalize).y + 1 ∨
        (((chain3 ⟨0, 1.5, 0⟩).joints.getD (0 + 1) default).position.sub
          ((chain3 ⟨0, 1.5, 0⟩).joints.getD 0 default).position).normalize
          = ⟨0, -1, 0⟩)) ∧
    ((rotateByQuat (((updateRotations (chain3 ⟨0, 1.5, 0⟩)).joints.getD 0
            default).rotation) upAxis
        = (((chain3 ⟨0, 1.5, 0⟩).joints.getD (0 + 1) default).position.sub
          ((chain3 ⟨0, 1.5, 0⟩).joints.getD 0 default).position).normalize ∧
      ((((updateRotations (chain3 ⟨0, 1.5, 0⟩)).joints.getD 0
        default).rotation)).normSq = 1) ∧
    (∀ j : Nat, ((updateRotations (chain3 ⟨0, 1.5, 0⟩)).joints.getD j
        default).position
      = ((chain3 ⟨0, 1.5, 0⟩).joints.getD j default).position) ∧
    ((updateRotations (chain3 ⟨0, 1.5, 0⟩)).joints.getD
        ((chain3 ⟨0, 1.5, 0⟩).joints.length - 1) default).rotation
      = ((chain3 ⟨0, 1.5, 0⟩).joints.getD
        ((chain3 ⟨0, 1.5, 0⟩).joints.length - 1) default).rotation) := by
  have hdir : (((chain3 ⟨0, 1.5, 0⟩).joints.getD (0 + 1) default).position.sub
      ((chain3 ⟨0, 1.5, 0⟩).joints.getD 0 default).position).normalize
      = ⟨0, 1, 0⟩ := by
    show ((⟨0, 1, 0⟩ : V3).sub ⟨0, 0, 0⟩).normalize = ⟨0, 1, 0⟩
    rw [show (⟨0, 1, 0⟩ : V3).sub ⟨0, 0, 0⟩ = ⟨0, 1, 0⟩ by simp [V3.sub],
      normalizeY (by norm_num : (1 : ℝ) ≠ 0)]
    norm_num
  have hne : ((chain3 ⟨0, 1.5, 0⟩).joints.getD (0 + 1) default).position
      ≠ ((chain3 ⟨0, 1.5, 0⟩).joints.getD 0 default).position := by
    show (⟨0, 1, 0⟩ : V3) ≠ ⟨0, 0, 0⟩
    intro h
    have := (V3.ext_iff.mp h).2.1
    norm_num at this
  have hcase : numberEpsilon ≤ ((((chain3 ⟨0, 1.5, 0⟩).joints.getD (0 + 1)
        default).position.sub
      ((chain3 ⟨0, 1.5, 0⟩).joints.getD 0 default).position).normalize).y + 1 ∨
      (((chain3 ⟨0, 1.5, 0⟩).joints.getD (0 + 1) default).position.sub
        ((chain3 ⟨0, 1.5, 0⟩).joints.getD 0 default).position).normalize
        = ⟨0, -1, 0⟩ := by
    left
    rw [hdir]
    show numberEpsilon ≤ (1 : ℝ) + 1
    unfold numberEpsilon
    norm_num
  exact ⟨⟨by simp [chain3, testJoint], hne, hcase⟩,
    C8_update_rotations_maps_up (chain3 ⟨0, 1.5, 0⟩) 0
      (by simp [chain3, testJoint]) hne hcase⟩

/-!
## Chain construction (`createIKChainFromBones`)

`THREE.Vector3` / `THREE.Quaternion` objects held by bones and joints are
modelled as references (indices) into a heap of cells, so that
`clone()` (fresh cell, copied value) versus aliasing (shared cell) is
observable: mutating through one reference changes another reference's
readout exactly when the two references are equal.
-/

/-- A heap of position and rotation cells. -/
structure Heap where
  vecs : List V3
  quats : List Quat

def Heap.readVec (h : Heap) (r : Nat) : V3 := h.vecs.getD r ⟨0, 0, 0⟩

def Heap.readQuat (h : Heap) (r : Nat) : Quat := h.quats.getD r ⟨0, 0, 0, 1⟩

def Heap.writeVec (h : Heap) (r : Nat) (v : V3) : Heap :=
  { h with vecs := h.vecs.set r v }

/-- Allocate a fresh position cell holding `v` (this is `v.clone()`):
returns the grown heap and the fresh reference. -/
def Heap.allocVec (h : Heap) (v : V3) : Heap × Nat :=
  ({ h with vecs := h.vecs ++ [v] }, h.vecs.length)

def Heap.allocQuat (h : Heap) (q : Quat) : Heap × Nat :=
  ({ h with quats := h.quats ++ [q] }, h.quats.length)

/-- A `THREE.Bone` as seen by `createIKChainFromBones`: a name and
references to its `position` and `quaternion` objects. -/
structure BoneRef where
  name : String
  posRef : Nat
  rotRef : Nat

instance : Inhabited BoneRef := ⟨⟨"", 0, 0⟩⟩

/-- A constructed `Joint` in the reference model: fresh position and
rotation cells plus the default constraints. -/
structure JointRef where
  name : String
  posRef : Nat
  rotRef : Nat
  minRotation : Euler3
  maxRotation : Euler3

instance : Inhabited JointRef := ⟨⟨"", 0, 0, ⟨0, 0, 0⟩, ⟨0, 0, 0⟩⟩⟩

/-- The constructed `IKChain` in the reference model. -/
structure ChainRef where
  name : String
  joints : List JointRef
  target : V3
  effector : JointRef

/-- The `bones.map((bone, index) => ...)` body of `createIKChainFromBones`:
for each bone, clone its position and quaternion into fresh cells and
attach the default ±π/2 rotation constraints. -/
noncomputable def buildJoints (h : Heap) : List BoneRef → Nat → Heap × List JointRef
  | [], _ => (h, [])
  | b :: bs, i =>
    let pAlloc := h.allocVec (h.readVec b.posRef)
    let qAlloc := pAlloc.1.allocQuat (h.readQuat b.rotRef)
    let rest := buildJoints qAlloc.1 bs (i + 1)
    (rest.1,
      { name := if b.name = "" then "joint_" ++ toString i else b.name,
        posRef := pAlloc.2,
        rotRef := qAlloc.2,
        minRotation := ⟨-(Real.pi / 2), -(Real.pi / 2), -(Real.pi / 2)⟩,
        maxRotation := ⟨Real.pi / 2, Real.pi / 2, Real.pi / 2⟩ } :: rest.2)

/-- `createIKChainFromBones`: build one joint per bone (cloned state,
default constraints), the given target, and the effector set to the last
joint. -/
noncomputable def createIKChainFromBones (h : Heap) (bones : List BoneRef)
    (targetPosition : V3) (chainName : String) : Heap × ChainRef :=
  ((buildJoints h bones 0).1,
    { name := chainName,
      joints := (buildJoints h bones 0).2,
      target := targetPosition,
      effector := (buildJoints h bones 0).2.getLastD default })

theorem readVec_writeVec_ne {h : Heap} {r1 r2 : Nat} (hne : r1 ≠ r2) (v : V3) :
    (h.writeVec r1 v).readVec r2 = h.readVec r2 := by
  unfold Heap.writeVec Heap.readVec
  simp only
  rw [List.getD_eq_getElem?_getD, List.getD_eq_getElem?_getD,
    List.getElem?_set_ne hne]

theorem buildJoints_cons (h : Heap) (b : BoneRef) (bs : List BoneRef) (i : Nat) :
    buildJoints h (b :: bs) i =
      ((buildJoints ⟨h.vecs ++ [h.readVec b.posRef],
          h.quats ++ [h.readQuat b.rotRef]⟩ bs (i + 1)).1,
        { name := if b.name = "" then "joint_" ++ toString i else b.name,
          posRef := h.vecs.length,
          rotRef := h.quats.length,
          minRotation := ⟨-(Real.pi / 2), -(Real.pi / 2), -(Real.pi / 2)⟩,
          maxRotation := ⟨Real.pi / 2, Real.pi / 2, Real.pi / 2⟩ }
          :: (buildJoints ⟨h.vecs ++ [h.readVec b.posRef],
            h.quats ++ [h.readQuat b.rotRef]⟩ bs (i + 1)).2) := rfl

theorem getD_mem_of_lt {α : Type} [Inhabited α] {l : List α} {k : Nat}
    (hk : k < l.length) : l.getD k default ∈ l := by
  rw [List.getD_eq_getElem?_getD, List.getElem?_eq_getElem hk]
  exact List.getElem_mem hk

/-- Full characterization of the joint-building fold: the produced joints
are in bone order; each holds fresh cell references (starting at the old
heap sizes, one per bone) carrying copies of the corresponding bone's
current position and rotation plus the default ±π/2 constraints; and every
pre-existing cell keeps its value. -/
theorem buildJoints_spec : ∀ (bs : List BoneRef) (h : Heap) (i : Nat),
    (∀ b ∈ bs, b.posRef < h.vecs.length ∧ b.rotRef < h.quats.length) →
    ((buildJoints h bs i).2.length = bs.length) ∧
    ((buildJoints h bs i).1.vecs.length = h.vecs.length + bs.length) ∧
    ((buildJoints h bs i).1.quats.length = h.quats.length + bs.length) ∧
    (∀ k, k < bs.length →
      ((buildJoints h bs i).2.getD k default).posRef = h.vecs.length + k ∧
      ((buildJoints h bs i).2.getD k default).rotRef = h.quats.length + k ∧
      ((buildJoints h bs i).2.getD k default).minRotation
        = ⟨-(Real.pi / 2), -(Real.pi / 2), -(Real.pi / 2)⟩ ∧
      ((buildJoints h bs i).2.getD k default).maxRotation
        = ⟨Real.pi / 2, Real.pi / 2, Real.pi / 2⟩ ∧
      (buildJoints h bs i).1.readVec (h.vecs.length + k)
        = h.readVec ((bs.getD k default).posRef) ∧
      (buildJoints h bs i).1.readQuat (h.quats.length + k)
        = h.readQuat ((bs.getD k default).rotRef)) ∧
    (∀ r, r < h.vecs.length → (buildJoints h bs i).1.readVec r = h.readVec r) ∧
    (∀ r, r < h.quats.length → (buildJoints h bs i).1.readQuat r = h.readQuat r)
  | [], h, i, _ => by
    refine ⟨rfl, by simp [buildJoints], by simp [buildJoints], ?_, ?_, ?_⟩
    · intro k hk
      exact absurd hk (by simp)
    · intro r _
      rfl
    · intro r _
      rfl
  | b :: bs, h, i, hv => by
    have hb := hv b (List.mem_cons_self b bs)
    have h2vecs : (⟨h.vecs ++ [h.readVec b.posRef],
        h.quats ++ [h.readQuat b.rotRef]⟩ : Heap).vecs.length
        = h.vecs.length + 1 := by simp
    have h2quats : (⟨h.vecs ++ [h.readVec b.posRef],
        h.quats ++ [h.readQuat b.rotRef]⟩ : Heap).quats.length
        = h.quats.length + 1 := by simp
    have hv2 : ∀ b' ∈ bs, b'.posRef < (⟨h.vecs ++ [h.readVec b.posRef],
        h.quats ++ [h.readQuat b.rotRef]⟩ : Heap).vecs.length ∧
        b'.rotRef < (⟨h.vecs ++ [h.readVec b.posRef],
        h.quats ++ [h.readQuat b.rotRef]⟩ : Heap).quats.length := by
      intro b' hb'
      have := hv b' (List.mem_cons_of_mem b hb')
      rw [h2vecs, h2quats]
      omega
    have IH := buildJoints_spec bs
      ⟨h.vecs ++ [h.readVec b.posRef], h.quats ++ [h.readQuat b.rotRef]⟩
      (i + 1) hv2
    -- reads of pre-existing cells through the one-cell extension
    have hreadV : ∀ r, r < h.vecs.length →
        (⟨h.vecs ++ [h.readVec b.posRef],
          h.quats ++ [h.readQuat b.rotRef]⟩ : Heap).readVec r = h.readVec r := by
      intro r hr
      show (h.vecs ++ [h.readVec b.posRef]).getD r ⟨0, 0, 0⟩ = _
      rw [List.getD_append _ _ _ _ hr]
      rfl
    have hreadQ : ∀ r, r < h.quats.length →
        (⟨h.vecs ++ [h.readVec b.posRef],
          h.quats ++ [h.readQuat b.rotRef]⟩ : Heap).readQuat r = h.readQuat r := by
      intro r hr
      show (h.quats ++ [h.readQuat b.rotRef]).getD r ⟨0, 0, 0, 1⟩ = _
      rw [List.getD_append _ _ _ _ hr]
      rfl
    have hnewV : (⟨h.vecs ++ [h.readVec b.posRef],
        h.quats ++ [h.readQuat b.rotRef]⟩ : Heap).readVec h.vecs.length
        = h.readVec b.posRef := by
      show (h.vecs ++ [h.readVec b.posRef]).getD h.vecs.length ⟨0, 0, 0⟩ = _
      rw [List.getD_append_right _ _ _ _ (le_refl _)]
      simp
    have hnewQ : (⟨h.vecs ++ [h.readVec b.posRef],
        h.quats ++ [h.readQuat b.rotRef]⟩ : Heap).readQuat h.quats.length
        = h.readQuat b.rotRef := by
      show (h.quats ++ [h.readQuat b.rotRef]).getD h.quats.length ⟨0, 0, 0, 1⟩ = _
      rw [List.getD_append_right _ _ _ _ (le_refl _)]
      simp
    rw [buildJoints_cons]
    obtain ⟨IHlen, IHvlen, IHqlen, IHk, IHpv, IHpq⟩ := IH
    refine ⟨?_, ?_, ?_, ?_, ?_, ?_⟩
    · simp only [List.length_cons, IHlen]
    · simp only [List.length_cons]
      rw [IHvlen, h2vecs]
      omega
    · simp only [List.length_cons]
      rw [IHqlen, h2quats]
      omega
    · intro k hk
      match k with
      | 0 =>
        simp only [List.getD_cons_zero]
        refine ⟨by omega, by omega, by trivial, by trivial, ?_, ?_⟩
        · have := IHpv h.vecs.length (by rw [h2vecs]; omega)
          rw [show h.vecs.length + 0 = h.vecs.length by omega, this, hnewV]
        · have := IHpq h.quats.length (by rw [h2quats]; omega)
          rw [show h.quats.length + 0 = h.quats.length by omega, this, hnewQ]
      | k + 1 =>
        have hk' : k < bs.length := by simpa using hk
        obtain ⟨jp, jr, jmin, jmax, jv, jq⟩ := IHk k hk'
        simp only [List.getD_cons_succ]
        refine ⟨by rw [jp, h2vecs]; omega, by rw [jr, h2quats]; omega,
          jmin, jmax, ?_, ?_⟩
        · have hb' := hv (bs.getD k default)
            (List.mem_cons_of_mem b (getD_mem_of_lt hk'))
          rw [show h.vecs.length + (k + 1)
              = (h.vecs.length + 1) + k by omega, ← h2vecs, jv,
            hreadV _ hb'.1]
        · have hb' := hv (bs.getD k default)
            (List.mem_cons_of_mem b (getD_mem_of_lt hk'))
          rw [show h.quats.length + (k + 1)
              = (h.quats.length + 1) + k by omega, ← h2quats, jq,
            hreadQ _ hb'.2]
    · intro r hr
      rw [IHpv r (by rw [h2vecs]; omega), hreadV r hr]
    · intro r hr
      rw [IHpq r (by rw [h2quats]; omega), hreadQ r hr]

/-- **C7**: for every non-empty bone sequence with valid references,
`createIKChainFromBones` returns a chain with one joint per bone in order;
its `target` is the given point; its `effector` is the last joint; each
joint's position and rotation cells hold copies of the corresponding
bone's current values in fresh cells, each joint carries the default
−π/2..π/2 constraints, and the joint cells never alias the bone cells:
writing through a chain joint's position reference leaves every bone's
position readout unchanged, and vice versa. -/
theorem C7_create_chain_from_bones (h : Heap) (bones : List BoneRef)
    (t : V3) (nm : String) (hne : bones ≠ [])
    (hv : ∀ b ∈ bones, b.posRef < h.vecs.length ∧ b.rotRef < h.quats.length) :
    ((createIKChainFromBones h bones t nm).2.joints.length = bones.length) ∧
    ((createIKChainFromBones h bones t nm).2.target = t) ∧
    ((createIKChainFromBones h bones t nm).2.effector
      = (createIKChainFromBones h bones t nm).2.joints.getLastD default) ∧
    (∀ k, k < bones.length →
      ((createIKChainFromBones h bones t nm).1.readVec
          (((createIKChainFromBones h bones t nm).2.joints.getD k default).posRef)
        = h.readVec ((bones.getD k default).posRef)) ∧
      ((createIKChainFromBones h bones t nm).1.readQuat
          (((createIKChainFromBones h bones t nm).2.joints.getD k default).rotRef)
        = h.readQuat ((bones.getD k default).rotRef)) ∧
      ((createIKChainFromBones h bones t nm).2.joints.getD k default).minRotation
        = ⟨-(Real.pi / 2), -(Real.pi / 2), -(Real.pi / 2)⟩ ∧
      ((createIKChainFromBones h bones t nm).2.joints.getD k default).maxRotation
        = ⟨Real.pi / 2, Real.pi / 2, Real.pi / 2⟩) ∧
    (∀ k j, k < bones.length → j < bones.length →
      ((createIKChainFromBones h bones t nm).2.joints.getD k default).posRef
        ≠ (bones.getD j default).posRef ∧
      ∀ v : V3,
        (((createIKChainFromBones h bones t nm).1.writeVec
            (((createIKChainFromBones h bones t nm).2.joints.getD k
              default).posRef) v).readVec ((bones.getD j default).posRef)
          = (createIKChainFromBones h bones t nm).1.readVec
            ((bones.getD j default).posRef)) ∧
        (((createIKChainFromBones h bones t nm).1.writeVec
            ((bones.getD j default).posRef) v).readVec
            (((createIKChainFromBones h bones t nm).2.joints.getD k
              default).posRef)
          = (createIKChainFromBones h bones t nm).1.readVec
            (((createIKChainFromBones h bones t nm).2.joints.getD k
              default).posRef))) := by
  obtain ⟨hlen, hvlen, hqlen, hk, hpv, hpq⟩ := buildJoints_spec bones h 0 hv
  refine ⟨hlen, rfl, rfl, ?_, ?_⟩
  · intro k hkb
    obtain ⟨jp, jr, jmin, jmax, jv, jq⟩ := hk k hkb
    refine ⟨?_, ?_, jmin, jmax⟩
    · show (buildJoints h bones 0).1.readVec
        (((buildJoints h bones 0).2.getD k default).posRef) = _
      rw [jp, jv]
    · show (buildJoints h bones 0).1.readQuat
        (((buildJoints h bones 0).2.getD k default).rotRef) = _
      rw [jr, jq]
  · intro k j hkb hjb
    obtain ⟨jp, _, _, _, _, _⟩ := hk k hkb
    have hbj : (bones.getD j default).posRef < h.vecs.length :=
      (hv (bones.getD j default) (getD_mem_of_lt hjb)).1
    have hneq : ((createIKChainFromBones h bones t nm).2.joints.getD k
        default).posRef ≠ (bones.getD j default).posRef := by
      show ((buildJoints h bones 0).2.getD k default).posRef ≠ _
      rw [jp]
      omega
    exact ⟨hneq, fun v =>
      ⟨readVec_writeVec_ne hneq v, readVec_writeVec_ne (Ne.symm hneq) v⟩⟩

/-- Concrete heap for the construction witness: two bone position cells and
two bone rotation cells. -/
def heap0 : Heap :=
  ⟨[⟨1, 2, 3⟩, ⟨4, 5, 6⟩], [⟨0, 0, 0, 1⟩, ⟨0, 0, 0, 1⟩]⟩

/-- Two bones referencing the cells of `heap0`. -/
def bones0 : List BoneRef := [⟨"hip", 0, 0⟩, ⟨"knee", 1, 1⟩]

theorem C7_create_chain_from_bones_witness :
    (bones0 ≠ [] ∧
      (∀ b ∈ bones0, b.posRef < heap0.vecs.length ∧
        b.rotRef < heap0.quats.length)) ∧
    (((createIKChainFromBones heap0 bones0 ⟨7, 8, 9⟩ "arm").2.joints.length
        = bones0.length) ∧
      ((createIKChainFromBones heap0 bones0 ⟨7, 8, 9⟩ "arm").2.target
        = ⟨7, 8, 9⟩) ∧
      ((createIKChainFromBones heap0 bones0 ⟨7, 8, 9⟩ "arm").2.effector
        = (createIKChainFromBones heap0 bones0 ⟨7, 8, 9⟩
          "arm").2.joints.getLastD default) ∧
      (∀ k, k < bones0.length →
        ((createIKChainFromBones heap0 bones0 ⟨7, 8, 9⟩ "arm").1.readVec
            (((createIKChainFromBones heap0 bones0 ⟨7, 8, 9⟩
              "arm").2.joints.getD k default).posRef)
          = heap0.readVec ((bones0.getD k default).posRef)) ∧
        ((createIKChainFromBones heap0 bones0 ⟨7, 8, 9⟩ "arm").1.readQuat
            (((createIKChainFromBones heap0 bones0 ⟨7, 8, 9⟩
              "arm").2.joints.getD k default).rotRef)
          = heap0.readQuat ((bones0.getD k default).rotRef)) ∧
        ((createIKChainFromBones heap0 bones0 ⟨7, 8, 9⟩ "arm").2.joints.getD k
          default).minRotation
          = ⟨-(Real.pi / 2), -(Real.pi / 2), -(Real.pi / 2)⟩ ∧
        ((createIKChainFromBones heap0 bones0 ⟨7, 8, 9⟩ "arm").2.joints.getD k
          default).maxRotation
          = ⟨Real.pi / 2, Real.pi / 2, Real.pi / 2⟩) ∧
      (∀ k j, k < bones0.length → j < bones0.length →
        ((createIKChainFromBones heap0 bones0 ⟨7, 8, 9⟩ "arm").2.joints.getD k
          default).posRef ≠ (bones0.getD j default).posRef ∧
        ∀ v : V3,
          (((createIKChainFromBones heap0 bones0 ⟨7, 8, 9⟩ "arm").1.writeVec
              (((createIKChainFromBones heap0 bones0 ⟨7, 8, 9⟩
                "arm").2.joints.getD k default).posRef) v).readVec
              ((bones0.getD j default).posRef)
            = (createIKChainFromBones heap0 bones0 ⟨7, 8, 9⟩ "arm").1.readVec
              ((bones0.getD j default).posRef)) ∧
          (((createIKChainFromBones heap0 bones0 ⟨7, 8, 9⟩ "arm").1.writeVec
              ((bones0.getD j default).posRef) v).readVec
              (((createIKChainFromBones heap0 bones0 ⟨7, 8, 9⟩
                "arm").2.joints.getD k default).posRef)
            = (createIKChainFromBones heap0 bones0 ⟨7, 8, 9⟩ "arm").1.readVec
              (((createIKChainFromBones heap0 bones0 ⟨7, 8, 9⟩
                "arm").2.joints.getD k default).posRef)))) := by
  have hvalid : ∀ b ∈ bones0, b.posRef < heap0.vecs.length ∧
      b.rotRef < heap0.quats.length := by
    intro b hb
    simp only [bones0, List.mem_cons, List.not_mem_nil, or_false] at hb
    rcases hb with rfl | rfl
    · exact ⟨by simp [heap0], by simp [heap0]⟩
    · exact ⟨by simp [heap0], by simp [heap0]⟩
  exact ⟨⟨by simp [bones0], hvalid⟩,
    C7_create_chain_from_bones heap0 bones0 ⟨7, 8, 9⟩ "arm"
      (by simp [bones0]) hvalid⟩
